import Mathlib

/-
Verification development for the Palladium Sense language server
(src/server/src/server.ts).  The JSON-semantics core is shallowly embedded:

* JSON values are the inductive type `Json`; JavaScript objects are ordered
  association lists, which is how `JSON.parse` materialises them (distinct
  keys, source order).  JSON numbers are modelled by their integer fragment:
  the parser model rejects fractional/exponent numerals outright instead of
  misreading them, and no claim under study depends on IEEE-754 arithmetic.
* `jsGet`/`jsSet` model JavaScript property read and assignment on such
  objects: assignment to an existing key keeps its position, assignment to a
  fresh key appends it.
-/

inductive Json where
  | null
  | bool (b : Bool)
  | num (n : Int)
  | str (s : String)
  | arr (items : List Json)
  | obj (entries : List (String × Json))

/-- JavaScript property read (`record[key]`) on an object's ordered entries. -/
def jsGet : List (String × Json) → String → Option Json
  | [], _ => none
  | (k, v) :: rest, key => if k = key then some v else jsGet rest key

/-- JavaScript property assignment (`record[key] = val`): an existing key keeps
its position and gets the new value, a fresh key is appended at the end. -/
def jsSet : List (String × Json) → String → Json → List (String × Json)
  | [], key, val => [(key, val)]
  | (k, v) :: rest, key, val =>
    if k = key then (k, val) :: rest else (k, v) :: jsSet rest key val

/-- `Object.prototype.hasOwnProperty.call(target, key)`. -/
def hasKeyB (entries : List (String × Json)) (key : String) : Bool :=
  entries.any (fun e => e.1 = key)

/-- Embeds `createEmptyConditionsBlock` (server.ts:1937). -/
def createEmptyConditionsBlock : Json :=
  Json.obj [("enabling", Json.arr []), ("unlocking", Json.arr [])]

/-- The `enabling` half of `ensureAbilityConditions`'s repair of an existing
conditions object: `if (!Array.isArray(conditions["enabling"])) conditions["enabling"] = []`. -/
def fixEnabling (cf : List (String × Json)) : List (String × Json) :=
  match jsGet cf "enabling" with
  | some (Json.arr _) => cf
  | _ => jsSet cf "enabling" (Json.arr [])

/-- The `unlocking` half of `ensureAbilityConditions`'s repair. -/
def fixUnlocking (cf : List (String × Json)) : List (String × Json) :=
  match jsGet cf "unlocking" with
  | some (Json.arr _) => cf
  | _ => jsSet cf "unlocking" (Json.arr [])

/-- Embeds `ensureAbilityConditions` (server.ts:1870-1892).  A non-object root
is left alone; a missing or non-object `conditions` member is replaced by the
empty block; an existing conditions object has missing `enabling`/`unlocking`
arrays filled in.  The in-place mutation of the source is rendered as
returning the updated value. -/
def ensureAbilityConditions (root : Json) : Json :=
  match root with
  | Json.obj fields =>
    match jsGet fields "conditions" with
    | some (Json.obj cf) =>
      Json.obj (jsSet fields "conditions" (Json.obj (fixUnlocking (fixEnabling cf))))
    | _ => Json.obj (jsSet fields "conditions" createEmptyConditionsBlock)
  | _ => root

/-- The body of `assignBodyPart`'s reordering loop in
`ensureEnergyRendererBodyPart` (server.ts:1900-1920): entries are copied into
a fresh object, and `"body_part": "head"` is inserted right after the first
`type` key (the `inserted` flag), or appended at the end if no `type` key was
seen. -/
def assignLoop : List (String × Json) → List (String × Json) → Bool → List (String × Json)
  | [], acc, inserted =>
    if inserted then acc else jsSet acc "body_part" (Json.str "head")
  | (k, v) :: rest, acc, inserted =>
    let acc1 := jsSet acc k v
    if !inserted && k = "type" then
      assignLoop rest (jsSet acc1 "body_part" (Json.str "head")) true
    else
      assignLoop rest acc1 inserted

/-- Embeds the inner `assignBodyPart` of `ensureEnergyRendererBodyPart`:
a target that already owns `body_part` is untouched, otherwise its entries
are rebuilt with `body_part` inserted after `type`. -/
def assignBodyPart (fields : List (String × Json)) : List (String × Json) :=
  if hasKeyB fields "body_part" then fields else assignLoop fields [] false

/-- One iteration of the array loop of `ensureEnergyRendererBodyPart`:
`if (isPlainObject(item)) assignBodyPart(item)`. -/
def assignIfPlainObject (item : Json) : Json :=
  match item with
  | Json.obj f => Json.obj (assignBodyPart f)
  | x => x

/-- Embeds `ensureEnergyRendererBodyPart` (server.ts:1894-1935): arrays have
`assignBodyPart` applied to each plain-object item, plain objects get it
directly, everything else is untouched. -/
def ensureEnergyRendererBodyPart (root : Json) : Json :=
  match root with
  | Json.arr items => Json.arr (items.map assignIfPlainObject)
  | Json.obj f => Json.obj (assignBodyPart f)
  | x => x

/-- Decimal repetition of the snippet indentation unit, `indentUnit.repeat(d)`
with `indentUnit = "    "` (server.ts:1823). -/
def repeatStr : Nat → String → String
  | 0, _ => ""
  | n + 1, s => s ++ repeatStr n s

def indentUnit : String := "    "

/-- Joining rendered member lines, `lines.join(",\n")`. -/
def joinSep (sep : String) : List String → String
  | [] => ""
  | [s] => s
  | s :: rest => s ++ sep ++ joinSep sep rest

/-- Snippet-escaping (server.ts:1952-1958): backslash, both braces and the
dollar sign are prefixed with a backslash.  The source chains four global
`String.replace` calls whose targets are single distinct characters and whose
replacements only prepend a backslash, so the chain coincides with this
character-wise map. -/
def escapeChar (c : Char) : List Char :=
  if c = '\\' || c = '{' || c = '}' || c = '$' then ['\\', c] else [c]

def escapeSnippet (s : String) : String :=
  ⟨s.data.foldr (fun c acc => escapeChar c ++ acc) []⟩

/-- The default text of a primitive leaf, `value === null ? "null" : String(value ?? "")`. -/
def primitiveDefaultText : Json → String
  | Json.null => "null"
  | Json.bool b => toString b
  | Json.num n => toString n
  | Json.str s => s
  | _ => ""

/-- Embeds `buildPrimitiveSnippet` (server.ts:1850-1860): the leaf becomes a
numbered tab-stop placeholder whose default is the escaped stringified value
(or `value` when that is empty), quoted when the leaf is a string.  Returns
the rendered text together with the incremented tab counter. -/
def buildPrimitiveSnippet (v : Json) (tab : Nat) : String × Nat :=
  let defaultText := primitiveDefaultText v
  let escaped := escapeSnippet defaultText
  let content := if escaped = "" then "value" else escaped
  let placeholder := "$\x7b" ++ toString tab ++ ":" ++ content ++ "\x7d"
  (match v with
   | Json.str _ => "\"" ++ placeholder ++ "\""
   | _ => placeholder, tab + 1)

mutual

/-- Embeds `renderValue` inside `buildSnippetFromExample` (server.ts:1824-1848):
arrays and objects render one member per line at increasing four-space indent,
primitives become placeholders; the tab counter threads through in document
order. -/
def renderValue (v : Json) (depth tab : Nat) : String × Nat :=
  match v with
  | Json.arr [] => ("[]", tab)
  | Json.arr (item :: rest) =>
    let p := renderItems (item :: rest) (depth + 1) tab
    ("[\n" ++ joinSep ",\n" p.1 ++ "\n" ++ repeatStr depth indentUnit ++ "]", p.2)
  | Json.obj [] => ("\x7b\x7d", tab)
  | Json.obj (e :: rest) =>
    let p := renderEntries (e :: rest) (depth + 1) tab
    ("\x7b\n" ++ joinSep ",\n" p.1 ++ "\n" ++ repeatStr depth indentUnit ++ "\x7d", p.2)
  | prim => buildPrimitiveSnippet prim tab

/-- The `value.map(item => nextIndent + renderValue(item, depth + 1))` part of
array rendering, with the shared tab counter threaded left to right. -/
def renderItems (items : List Json) (depth tab : Nat) : List String × Nat :=
  match items with
  | [] => ([], tab)
  | j :: rest =>
    let p := renderValue j depth tab
    let q := renderItems rest depth p.2
    ((repeatStr depth indentUnit ++ p.1) :: q.1, q.2)

/-- The `entries.map(([key, val]) => nextIndent + "key": render(val))` part of
object rendering. -/
def renderEntries (entries : List (String × Json)) (depth tab : Nat) : List String × Nat :=
  match entries with
  | [] => ([], tab)
  | (k, val) :: rest =>
    let p := renderValue val depth tab
    let q := renderEntries rest depth p.2
    ((repeatStr depth indentUnit ++ "\"" ++ k ++ "\": " ++ p.1) :: q.1, q.2)

end

example : (renderValue (Json.obj [("a", Json.num 1)]) 0 1).1
    = "\x7b\n    \"a\": $\x7b1:1\x7d\n\x7d" := rfl

example : ensureAbilityConditions (Json.obj [("a", Json.num 1)])
    = Json.obj [("a", Json.num 1), ("conditions", createEmptyConditionsBlock)] := rfl

/-
The tab-stop substitution machine.  It models what the editor does to a
snippet when every placeholder is accepted with its default text: outside a
placeholder characters are copied; `$` immediately followed by `{` opens a
placeholder header; the header (the tab-stop number) is skipped through the
first `:`; the default text is then emitted with snippet escapes
(backslash-char pairs) undone, up to the unescaped closing brace.
-/

inductive SubstState where
  | copy
  | header
  | body

def substM : SubstState → List Char → List Char
  | _, [] => []
  | SubstState.copy, [c] => [c]
  | SubstState.copy, c :: c2 :: r2 =>
    if c = '$' then
      (if c2 = '{' then substM SubstState.header r2
       else c :: substM SubstState.copy (c2 :: r2))
    else c :: substM SubstState.copy (c2 :: r2)
  | SubstState.header, c :: r =>
    if c = ':' then substM SubstState.body r else substM SubstState.header r
  | SubstState.body, [c] => if c = '}' then [] else [c]
  | SubstState.body, c :: c2 :: r2 =>
    if c = '\\' then c2 :: substM SubstState.body r2
    else if c = '}' then substM SubstState.copy (c2 :: r2)
    else c :: substM SubstState.body (c2 :: r2)

/-- Replace every tab-stop placeholder of a snippet by its default text, with
snippet escapes undone. -/
def substPlaceholders (s : String) : String :=
  ⟨substM SubstState.copy s.data⟩

/- `JSON.stringify(value, null, 4)`, the pretty-printer the server uses for
the `pretty` half of `buildSnippetFromExample`.  String escaping follows the
ECMAScript `QuoteJSONString` algorithm restricted to the characters our
`Json` model can hold. -/

def hexDigitChar (n : Nat) : Char :=
  if n < 10 then Char.ofNat ('0'.toNat + n) else Char.ofNat ('a'.toNat + (n - 10))

def jsonEscapeChar (c : Char) : List Char :=
  if c = '"' then ['\\', '"']
  else if c = '\\' then ['\\', '\\']
  else if c = '\n' then ['\\', 'n']
  else if c = '\t' then ['\\', 't']
  else if c = '\r' then ['\\', 'r']
  else if c = '\x08' then ['\\', 'b']
  else if c = '\x0c' then ['\\', 'f']
  else if c.toNat < 0x20 then
    ['\\', 'u', '0', '0', hexDigitChar (c.toNat / 16), hexDigitChar (c.toNat % 16)]
  else [c]

def jsonEscape (s : String) : String :=
  ⟨s.data.foldr (fun c acc => jsonEscapeChar c ++ acc) []⟩

mutual

/-- `JSON.stringify(v, null, 4)` at nesting depth `depth`. -/
def stringifyJson (v : Json) (depth : Nat) : String :=
  match v with
  | Json.null => "null"
  | Json.bool b => toString b
  | Json.num n => toString n
  | Json.str s => "\"" ++ jsonEscape s ++ "\""
  | Json.arr [] => "[]"
  | Json.arr (i :: rest) =>
    "[\n" ++ joinSep ",\n" (stringifyItems (i :: rest) (depth + 1)) ++ "\n"
      ++ repeatStr depth indentUnit ++ "]"
  | Json.obj [] => "\x7b\x7d"
  | Json.obj (e :: rest) =>
    "\x7b\n" ++ joinSep ",\n" (stringifyEntries (e :: rest) (depth + 1)) ++ "\n"
      ++ repeatStr depth indentUnit ++ "\x7d"

def stringifyItems (items : List Json) (depth : Nat) : List String :=
  match items with
  | [] => []
  | j :: rest => (repeatStr depth indentUnit ++ stringifyJson j depth) :: stringifyItems rest depth

def stringifyEntries (entries : List (String × Json)) (depth : Nat) : List String :=
  match entries with
  | [] => []
  | (k, v) :: rest =>
    (repeatStr depth indentUnit ++ "\"" ++ jsonEscape k ++ "\": " ++ stringifyJson v depth)
      :: stringifyEntries rest depth

end

/-
`JSON.parse`, modelled as a fuel-indexed recursive-descent parser over the
integer fragment of JSON numbers.  Fractional/exponent numerals and `\u`
string escapes are rejected (returned as `none`) rather than approximated;
no claim under study exercises them.  Duplicate object keys follow the
ECMAScript rule: the first occurrence keeps its position, the last value
wins (`jsSet`).
-/

def jsonWs (c : Char) : Bool :=
  c = ' ' || c = '\t' || c = '\n' || c = '\r'

def pskipWs : List Char → List Char
  | [] => []
  | c :: r => if jsonWs c then pskipWs r else c :: r

def escMap (e : Char) : Option Char :=
  if e = '"' then some '"'
  else if e = '\\' then some '\\'
  else if e = '/' then some '/'
  else if e = 'n' then some '\n'
  else if e = 't' then some '\t'
  else if e = 'r' then some '\r'
  else if e = 'b' then some '\x08'
  else if e = 'f' then some '\x0c'
  else none

/-- Parse the body of a JSON string literal after the opening quote, returning
the decoded characters and the remainder after the closing quote. -/
def parseStringChars : List Char → Option (List Char × List Char)
  | [] => none
  | '"' :: r => some ([], r)
  | '\\' :: e :: r =>
    match escMap e with
    | some c => (parseStringChars r).map (fun p => (c :: p.1, p.2))
    | none => none
  | c :: r =>
    if c.toNat < 0x20 then none
    else (parseStringChars r).map (fun p => (c :: p.1, p.2))

def takeDigits : List Char → List Char × List Char
  | [] => ([], [])
  | c :: r =>
    if c.isDigit then
      let p := takeDigits (r)
      (c :: p.1, p.2)
    else ([], c :: r)

def digitsToNat (ds : List Char) : Nat :=
  ds.foldl (fun a c => a * 10 + (c.toNat - '0'.toNat)) 0

/-- JSON integer numerals: optional minus, digits, no leading zeros. -/
def parseIntNumeral (l : List Char) : Option (Int × List Char) :=
  match l with
  | '-' :: r =>
    let p := takeDigits r
    match p.1 with
    | [] => none
    | d :: ds => if d = '0' && ds ≠ [] then none else some (-(digitsToNat (d :: ds) : Int), p.2)
  | _ =>
    let p := takeDigits l
    match p.1 with
    | [] => none
    | d :: ds => if d = '0' && ds ≠ [] then none else some ((digitsToNat (d :: ds) : Int), p.2)

mutual

def parseValueF : Nat → List Char → Option (Json × List Char)
  | 0, _ => none
  | fuel + 1, cs =>
    match pskipWs cs with
    | '{' :: r =>
      match pskipWs r with
      | '}' :: r2 => some (Json.obj [], r2)
      | cs2 => parseMembersF fuel cs2 []
    | '[' :: r =>
      match pskipWs r with
      | ']' :: r2 => some (Json.arr [], r2)
      | cs2 => parseElemsF fuel cs2 []
    | '"' :: r => (parseStringChars r).map (fun p => (Json.str ⟨p.1⟩, p.2))
    | 't' :: 'r' :: 'u' :: 'e' :: r => some (Json.bool true, r)
    | 'f' :: 'a' :: 'l' :: 's' :: 'e' :: r => some (Json.bool false, r)
    | 'n' :: 'u' :: 'l' :: 'l' :: r => some (Json.null, r)
    | l => (parseIntNumeral l).map (fun p => (Json.num p.1, p.2))

def parseMembersF : Nat → List Char → List (String × Json) → Option (Json × List Char)
  | 0, _, _ => none
  | fuel + 1, cs, acc =>
    match pskipWs cs with
    | '"' :: r =>
      match parseStringChars r with
      | none => none
      | some (kcs, r2) =>
        match pskipWs r2 with
        | ':' :: r3 =>
          match parseValueF fuel r3 with
          | none => none
          | some (v, r4) =>
            match pskipWs r4 with
            | ',' :: r5 => parseMembersF fuel r5 (jsSet acc ⟨kcs⟩ v)
            | '}' :: r5 => some (Json.obj (jsSet acc ⟨kcs⟩ v), r5)
            | _ => none
        | _ => none
    | _ => none

def parseElemsF : Nat → List Char → List Json → Option (Json × List Char)
  | 0, _, _ => none
  | fuel + 1, cs, acc =>
    match parseValueF fuel cs with
    | none => none
    | some (v, r) =>
      match pskipWs r with
      | ',' :: r2 => parseElemsF fuel r2 (acc ++ [v])
      | ']' :: r2 => some (Json.arr (acc ++ [v]), r2)
      | _ => none

end

/-- `JSON.parse`, requiring the whole input (up to trailing whitespace) to be
consumed.  The fuel strictly dominates the recursion depth of any input of
this length. -/
def parseJson (s : String) : Option Json :=
  match parseValueF (2 * s.data.length + 2) s.data with
  | some (v, rem) => if pskipWs rem = [] then some v else none
  | none => none

example : parseJson " \x7b\"a\": [1, true, \"x\"], \"b\": null\x7d "
    = some (Json.obj [("a", Json.arr [Json.num 1, Json.bool true, Json.str "x"]),
                      ("b", Json.null)]) := rfl

example : parseJson "not json" = none := rfl
example : parseJson "1.5" = none := rfl
example : parseJson "\x7b\"a\":1,\"a\":2\x7d" = some (Json.obj [("a", Json.num 2)]) := rfl

/- Association-list lemmas about the JavaScript object model. -/

theorem jsGet_jsSet_same (l : List (String × Json)) (k : String) (v : Json) :
    jsGet (jsSet l k v) k = some v := by
  induction l with
  | nil => simp [jsSet, jsGet]
  | cons e rest ih =>
    obtain ⟨k0, v0⟩ := e
    by_cases h : k0 = k
    · simp [jsSet, jsGet, h]
    · simp [jsSet, jsGet, h, ih]

theorem jsGet_jsSet_other (l : List (String × Json)) (k' k : String) (v : Json)
    (h : k' ≠ k) : jsGet (jsSet l k' v) k = jsGet l k := by
  induction l with
  | nil => simp [jsSet, jsGet, h]
  | cons e rest ih =>
    obtain ⟨k0, v0⟩ := e
    by_cases h0 : k0 = k'
    · subst h0
      simp [jsSet, jsGet, h]
    · simp only [jsSet, if_neg h0]
      by_cases h1 : k0 = k
      · simp [jsGet, h1]
      · simp [jsGet, h1, ih]

theorem jsSet_jsSet_same (l : List (String × Json)) (k : String) (v w : Json) :
    jsSet (jsSet l k v) k w = jsSet l k w := by
  induction l with
  | nil => simp [jsSet]
  | cons e rest ih =>
    obtain ⟨k0, v0⟩ := e
    by_cases h : k0 = k
    · simp [jsSet, h]
    · simp [jsSet, h, ih]

theorem hasKeyB_cons (k0 : String) (v0 : Json) (rest : List (String × Json)) (k : String) :
    hasKeyB ((k0, v0) :: rest) k = (decide (k0 = k) || hasKeyB rest k) := by
  simp [hasKeyB]

theorem hasKeyB_append (l1 l2 : List (String × Json)) (k : String) :
    hasKeyB (l1 ++ l2) k = (hasKeyB l1 k || hasKeyB l2 k) := by
  simp [hasKeyB, List.any_append]

theorem hasKeyB_jsSet_self (l : List (String × Json)) (k : String) (v : Json) :
    hasKeyB (jsSet l k v) k = true := by
  induction l with
  | nil => simp [jsSet, hasKeyB]
  | cons e rest ih =>
    obtain ⟨k0, v0⟩ := e
    by_cases h : k0 = k
    · simp [jsSet, hasKeyB, h]
    · simp only [jsSet, if_neg h]
      rw [hasKeyB_cons, ih]
      simp

theorem hasKeyB_jsSet_of (l : List (String × Json)) (a k : String) (v : Json)
    (h : hasKeyB l a = true) : hasKeyB (jsSet l k v) a = true := by
  induction l with
  | nil => simp [hasKeyB] at h
  | cons e rest ih =>
    obtain ⟨k0, v0⟩ := e
    rw [hasKeyB_cons] at h
    by_cases h0 : k0 = k
    · subst h0
      rcases Bool.or_eq_true_iff.mp h with ha | ha
      · simp [jsSet, hasKeyB_cons, ha]
      · simp [jsSet, hasKeyB_cons, ha]
    · simp only [jsSet, if_neg h0]
      rcases Bool.or_eq_true_iff.mp h with ha | ha
      · simp [hasKeyB_cons, ha]
      · rw [hasKeyB_cons, ih ha]
        simp

/-- Assignment of a fresh key is an append. -/
theorem jsSet_eq_append (l : List (String × Json)) (k : String) (v : Json)
    (h : hasKeyB l k = false) : jsSet l k v = l ++ [(k, v)] := by
  induction l with
  | nil => simp [jsSet]
  | cons e rest ih =>
    obtain ⟨k0, v0⟩ := e
    rw [hasKeyB_cons] at h
    rcases Bool.or_eq_false_iff.mp h with ⟨h0, h1⟩
    have h0' : k0 ≠ k := by simpa using h0
    simp [jsSet, h0', ih h1]

/- Idempotence infrastructure for `ensureAbilityConditions`. -/

theorem fixEnabling_get (cf : List (String × Json)) :
    ∃ a, jsGet (fixEnabling cf) "enabling" = some (Json.arr a) := by
  unfold fixEnabling
  rcases h : jsGet cf "enabling" with _ | val
  · exact ⟨[], jsGet_jsSet_same ..⟩
  · cases val
    case arr a => exact ⟨a, h⟩
    all_goals exact ⟨[], jsGet_jsSet_same ..⟩

theorem fixUnlocking_get (cf : List (String × Json)) :
    ∃ a, jsGet (fixUnlocking cf) "unlocking" = some (Json.arr a) := by
  unfold fixUnlocking
  rcases h : jsGet cf "unlocking" with _ | val
  · exact ⟨[], jsGet_jsSet_same ..⟩
  · cases val
    case arr a => exact ⟨a, h⟩
    all_goals exact ⟨[], jsGet_jsSet_same ..⟩

theorem fixUnlocking_get_enabling (cf : List (String × Json)) :
    jsGet (fixUnlocking cf) "enabling" = jsGet cf "enabling" := by
  unfold fixUnlocking
  rcases h : jsGet cf "unlocking" with _ | val
  · exact jsGet_jsSet_other _ _ _ _ (by decide)
  · cases val
    case arr a => rfl
    all_goals exact jsGet_jsSet_other _ _ _ _ (by decide)

theorem fixEnabling_fixed (cf : List (String × Json))
    (h : ∃ a, jsGet cf "enabling" = some (Json.arr a)) : fixEnabling cf = cf := by
  obtain ⟨a, ha⟩ := h
  unfold fixEnabling
  rw [ha]

theorem fixUnlocking_fixed (cf : List (String × Json))
    (h : ∃ a, jsGet cf "unlocking" = some (Json.arr a)) : fixUnlocking cf = cf := by
  obtain ⟨a, ha⟩ := h
  unfold fixUnlocking
  rw [ha]

/- Idempotence infrastructure for `ensureEnergyRendererBodyPart`. -/

theorem assignLoop_hasKey (rest : List (String × Json)) :
    ∀ (acc : List (String × Json)) (inserted : Bool),
      (inserted = true → hasKeyB acc "body_part" = true) →
      hasKeyB (assignLoop rest acc inserted) "body_part" = true := by
  induction rest with
  | nil =>
    intro acc inserted h
    cases inserted with
    | false => simpa [assignLoop] using hasKeyB_jsSet_self ..
    | true => simpa [assignLoop] using h rfl
  | cons e rest ih =>
    intro acc inserted h
    obtain ⟨k, v⟩ := e
    by_cases hb : (!inserted && decide (k = "type")) = true
    · simp only [assignLoop, hb, if_pos]
      exact ih _ true (fun _ => hasKeyB_jsSet_self ..)
    · simp only [assignLoop, hb, Bool.false_eq_true, if_neg, if_false]
      exact ih _ inserted (fun hi => hasKeyB_jsSet_of _ _ _ _ (h hi))

theorem assignBodyPart_hasKey (f : List (String × Json)) :
    hasKeyB (assignBodyPart f) "body_part" = true := by
  unfold assignBodyPart
  by_cases h : hasKeyB f "body_part" = true
  · simp [h]
  · simp only [h, if_neg, if_false]
    exact assignLoop_hasKey _ _ _ (by simp)

theorem assignBodyPart_idem (f : List (String × Json)) :
    assignBodyPart (assignBodyPart f) = assignBodyPart f := by
  conv_lhs => rw [assignBodyPart]
  rw [if_pos (assignBodyPart_hasKey f)]

theorem assignIfPlainObject_idem (x : Json) :
    assignIfPlainObject (assignIfPlainObject x) = assignIfPlainObject x := by
  cases x <;> simp [assignIfPlainObject, assignBodyPart_idem]

theorem eAC_obj_fallback (fields : List (String × Json))
    (h1 : ensureAbilityConditions (Json.obj fields)
        = Json.obj (jsSet fields "conditions" createEmptyConditionsBlock)) :
    ensureAbilityConditions (ensureAbilityConditions (Json.obj fields))
      = ensureAbilityConditions (Json.obj fields) := by
  have hblock : fixUnlocking (fixEnabling [("enabling", Json.arr []), ("unlocking", Json.arr [])])
      = [("enabling", Json.arr []), ("unlocking", Json.arr [])] := rfl
  rw [h1]
  simp only [ensureAbilityConditions, createEmptyConditionsBlock, jsGet_jsSet_same, hblock,
    jsSet_jsSet_same]

/-- C5: `ensureAbilityConditions` and `ensureEnergyRendererBodyPart` are
idempotent — for every JSON value, applying either function a second time to
the result of the first application changes nothing: no duplicate fields are
introduced and the key order equals that after the first application. -/
theorem c5_augment_idempotent (v : Json) :
    ensureAbilityConditions (ensureAbilityConditions v) = ensureAbilityConditions v
    ∧ ensureEnergyRendererBodyPart (ensureEnergyRendererBodyPart v)
        = ensureEnergyRendererBodyPart v := by
  constructor
  · cases v with
    | obj fields =>
      rcases h : jsGet fields "conditions" with _ | val
      · exact eAC_obj_fallback fields (by simp only [ensureAbilityConditions, h])
      · cases val
        case obj cf =>
          have h1 : ensureAbilityConditions (Json.obj fields)
              = Json.obj (jsSet fields "conditions"
                  (Json.obj (fixUnlocking (fixEnabling cf)))) := by
            simp only [ensureAbilityConditions, h]
          have he : fixEnabling (fixUnlocking (fixEnabling cf)) = fixUnlocking (fixEnabling cf) := by
            apply fixEnabling_fixed
            rw [fixUnlocking_get_enabling]
            exact fixEnabling_get cf
          have hu : fixUnlocking (fixUnlocking (fixEnabling cf)) = fixUnlocking (fixEnabling cf) :=
            fixUnlocking_fixed _ (fixUnlocking_get _)
          rw [h1]
          simp only [ensureAbilityConditions, jsGet_jsSet_same, he, hu, jsSet_jsSet_same]
        all_goals exact eAC_obj_fallback fields (by simp only [ensureAbilityConditions, h])
    | null => rfl
    | bool b => rfl
    | num n => rfl
    | str s => rfl
    | arr a => rfl
  · have hcomp : assignIfPlainObject ∘ assignIfPlainObject = assignIfPlainObject := by
      funext x
      exact assignIfPlainObject_idem x
    cases v with
    | arr items =>
      simp only [ensureEnergyRendererBodyPart, List.map_map, hcomp]
    | obj f =>
      simp only [ensureEnergyRendererBodyPart, assignBodyPart_idem]
    | null => rfl
    | bool b => rfl
    | num n => rfl
    | str s => rfl

/- Characterisation of `assignBodyPart` against the specified insertion. -/

/-- Refinement target for C4, following the spec's words: insert
`"body_part": "head"` immediately after the `type` key, or at the end if no
`type` key exists, leaving the relative order of all other keys unchanged. -/
def specInsertBodyPart : List (String × Json) → List (String × Json)
  | [] => [("body_part", Json.str "head")]
  | e :: rest =>
    if e.1 = "type" then e :: ("body_part", Json.str "head") :: rest
    else e :: specInsertBodyPart rest

theorem assignLoop_inserted (rest : List (String × Json)) :
    ∀ acc : List (String × Json),
      (rest.map Prod.fst).Nodup →
      (∀ k ∈ rest.map Prod.fst, hasKeyB acc k = false) →
      assignLoop rest acc true = acc ++ rest := by
  induction rest with
  | nil =>
    intro acc _ _
    simp [assignLoop]
  | cons e rest ih =>
    intro acc hnd hdisj
    obtain ⟨k, v⟩ := e
    have hkfresh : hasKeyB acc k = false := hdisj k (by simp)
    have hset : jsSet acc k v = acc ++ [(k, v)] := jsSet_eq_append _ _ _ hkfresh
    simp only [assignLoop, Bool.not_true, Bool.false_and, Bool.false_eq_true, if_false, hset]
    rw [ih (acc ++ [(k, v)]) (by simpa using hnd.of_cons)]
    · simp
    · intro k' hk'
      have hkk' : k ≠ k' := by
        intro heq
        subst heq
        exact (List.nodup_cons.mp (by simpa using hnd)).1 hk'
      rw [hasKeyB_append, hdisj k' (by simp [hk']), hasKeyB_cons]
      simp [hasKeyB, hkk']

theorem assignLoop_cons (k : String) (v : Json) (rest acc : List (String × Json))
    (inserted : Bool) :
    assignLoop ((k, v) :: rest) acc inserted =
      if !inserted && k = "type" then
        assignLoop rest (jsSet (jsSet acc k v) "body_part" (Json.str "head")) true
      else assignLoop rest (jsSet acc k v) inserted := rfl

theorem assignLoop_not_inserted (rest : List (String × Json)) :
    ∀ acc : List (String × Json),
      (rest.map Prod.fst).Nodup →
      (∀ k ∈ rest.map Prod.fst, hasKeyB acc k = false) →
      hasKeyB acc "body_part" = false →
      "body_part" ∉ rest.map Prod.fst →
      assignLoop rest acc false = acc ++ specInsertBodyPart rest := by
  induction rest with
  | nil =>
    intro acc _ _ hbpacc _
    simp only [assignLoop, Bool.false_eq_true, if_false, specInsertBodyPart]
    exact jsSet_eq_append _ _ _ hbpacc
  | cons e rest ih =>
    intro acc hnd hdisj hbpacc hbprest
    obtain ⟨k, v⟩ := e
    have hkfresh : hasKeyB acc k = false := hdisj k (by simp)
    have hset : jsSet acc k v = acc ++ [(k, v)] := jsSet_eq_append _ _ _ hkfresh
    have hkbp : k ≠ "body_part" := fun hkeq => hbprest (by simp [hkeq])
    have hbprest' : "body_part" ∉ rest.map Prod.fst := fun hmem => hbprest (by simp [hmem])
    have hndtail : (rest.map Prod.fst).Nodup := by
      simpa using List.Nodup.of_cons (by simpa using hnd)
    have hknotin : k ∉ rest.map Prod.fst := (List.nodup_cons.mp (by simpa using hnd)).1
    have hbp1 : hasKeyB (acc ++ [(k, v)]) "body_part" = false := by
      rw [hasKeyB_append, hbpacc, hasKeyB_cons]
      simp [hasKeyB, hkbp]
    by_cases hk : k = "type"
    · subst hk
      have hset2 : jsSet (acc ++ [("type", v)]) "body_part" (Json.str "head")
          = acc ++ [("type", v), ("body_part", Json.str "head")] := by
        rw [jsSet_eq_append _ _ _ hbp1]
        simp
      have hdisj2 : ∀ k' ∈ rest.map Prod.fst,
          hasKeyB (acc ++ [("type", v), ("body_part", Json.str "head")]) k' = false := by
        intro k' hk'
        have h1 : "type" ≠ k' := fun he => hknotin (he ▸ hk')
        have h2 : "body_part" ≠ k' := fun he => hbprest' (he ▸ hk')
        rw [hasKeyB_append, hdisj k' (by simp [hk']), hasKeyB_cons, hasKeyB_cons]
        simp [hasKeyB, h1, h2]
      rw [assignLoop_cons,
        if_pos (show (!false && decide (("type" : String) = "type")) = true from rfl),
        hset, hset2, assignLoop_inserted rest _ hndtail hdisj2]
      simp [specInsertBodyPart]
    · have hdisj2 : ∀ k' ∈ rest.map Prod.fst, hasKeyB (acc ++ [(k, v)]) k' = false := by
        intro k' hk'
        have h1 : k ≠ k' := fun he => hknotin (he ▸ hk')
        rw [hasKeyB_append, hdisj k' (by simp [hk']), hasKeyB_cons]
        simp [hasKeyB, h1]
      rw [assignLoop_cons, if_neg (by simp [hk]), hset,
        ih (acc ++ [(k, v)]) hndtail hdisj2 hbp1 hbprest']
      simp [specInsertBodyPart, hk]

theorem assignBodyPart_spec (fields : List (String × Json))
    (hnd : (fields.map Prod.fst).Nodup)
    (habs : hasKeyB fields "body_part" = false) :
    assignBodyPart fields = specInsertBodyPart fields := by
  unfold assignBodyPart
  rw [if_neg (by simp [habs])]
  have := assignLoop_not_inserted fields [] hnd (fun k _ => rfl) rfl
    (fun hmem => by
      have : hasKeyB fields "body_part" = true := by
        simp only [hasKeyB, List.any_eq_true]
        rcases List.mem_map.mp hmem with ⟨e, he, hek⟩
        exact ⟨e, he, by simp [hek]⟩
      rw [habs] at this
      exact Bool.false_ne_true this)
  simpa using this

/-- C4: for every energy-renderer example object (or array of objects) without
a `body_part` key, `ensureEnergyRendererBodyPart` inserts `"body_part": "head"`
immediately after the `type` key (or at the end when no `type` key exists) and
leaves the relative order of all other keys unchanged — i.e. it agrees with
`specInsertBodyPart`, the direct transcription of that specification.  The
key-distinctness hypotheses hold for any value produced by `JSON.parse`. -/
theorem c4_body_part_insertion :
    (∀ fields : List (String × Json),
        (fields.map Prod.fst).Nodup →
        hasKeyB fields "body_part" = false →
        ensureEnergyRendererBodyPart (Json.obj fields) = Json.obj (specInsertBodyPart fields))
    ∧ (∀ items : List Json,
        (∀ f, Json.obj f ∈ items → (f.map Prod.fst).Nodup ∧ hasKeyB f "body_part" = false) →
        ensureEnergyRendererBodyPart (Json.arr items)
          = Json.arr (items.map (fun j =>
              match j with
              | Json.obj f => Json.obj (specInsertBodyPart f)
              | x => x))) := by
  constructor
  · intro fields hnd habs
    simp only [ensureEnergyRendererBodyPart, assignBodyPart_spec fields hnd habs]
  · intro items h
    simp only [ensureEnergyRendererBodyPart]
    congr 1
    apply List.map_congr_left
    intro j hj
    cases j with
    | obj f =>
      obtain ⟨hnd, habs⟩ := h f hj
      simp only [assignIfPlainObject, assignBodyPart_spec f hnd habs]
    | null => rfl
    | bool b => rfl
    | num n => rfl
    | str s => rfl
    | arr a => rfl

/-- Witness for C4 at a concrete renderer example: `body_part` lands right
after `type`, and at the end when `type` is absent. -/
theorem c4_body_part_insertion_witness :
    ensureEnergyRendererBodyPart
        (Json.obj [("type", Json.str "palladium:laser"), ("bloom", Json.num 0)])
      = Json.obj (specInsertBodyPart [("type", Json.str "palladium:laser"), ("bloom", Json.num 0)])
    ∧ ensureEnergyRendererBodyPart (Json.arr [Json.obj [("glow_opacity", Json.num 1)]])
      = Json.arr ([Json.obj [("glow_opacity", Json.num 1)]].map (fun j =>
          match j with
          | Json.obj f => Json.obj (specInsertBodyPart f)
          | x => x)) := by
  constructor
  · exact c4_body_part_insertion.1 _ (by decide) rfl
  · refine c4_body_part_insertion.2 _ ?_
    intro f hf
    simp only [List.mem_singleton] at hf
    injection hf with hf'
    subst hf'
    exact ⟨by decide, rfl⟩

/-
The document-side model.  `TNode` mirrors the jsonc-parser `Node` shape the
server navigates (`type`, `children`, `offset`, `length`, `value`); protocol
positions are modelled by byte offsets (`document.positionAt` is an order
isomorphism between the two), so a diagnostic range is the pair
(node.offset, node.offset + node.length).
-/

inductive DocKind where
  | ability
  | condition
  | energy_renderer
deriving DecidableEq

structure AbilityField where
  name : String
  type : Option String := none
  description : Option String := none
  required : Option Bool := none
  fallback : Option String := none
deriving DecidableEq

/-- Embeds `AbilityRecord` (server.ts:42-51).  The derived `fieldIndex` map is
represented by the `fields` list itself: the server builds it as
`new Map(fields.map(f => [f.name, f]))`, so `fieldIndex.has(n)` is membership
of `n` in the field names and `fieldIndex.size == 0` iff `fields` is empty. -/
structure AbilityRecord where
  id : String
  name : String
  snippet : String
  exampleText : String
  description : Option String := none
  source : Option String := none
  fields : List AbilityField
deriving DecidableEq

def abilityFieldNames (r : AbilityRecord) : List String :=
  r.fields.map (fun f => f.name)

inductive TNode where
  | strN (value : String) (offset length : Nat)
  | numN (value : Int) (offset length : Nat)
  | boolN (value : Bool) (offset length : Nat)
  | nullN (offset length : Nat)
  | objN (children : List TNode) (offset length : Nat)
  | arrN (children : List TNode) (offset length : Nat)
  | propN (children : List TNode) (offset length : Nat)

def tnChildren : TNode → List TNode
  | TNode.objN cs _ _ => cs
  | TNode.arrN cs _ _ => cs
  | TNode.propN cs _ _ => cs
  | _ => []

structure Diag where
  severity : Nat
  message : String
  rangeStart : Nat
  rangeEnd : Nat
  source : String
deriving DecidableEq

def diagnosticSourceTag : String := "palladium"

/-- The `Unknown ability type` error, with `rangeFromNode` of the type value
string node (server.ts:1381-1386). -/
def unknownTypeDiag (typeId : String) (off len : Nat) : Diag :=
  { severity := 1
    message := "Unknown ability type \"" ++ typeId ++ "\"."
    rangeStart := off
    rangeEnd := off + len
    source := diagnosticSourceTag }

/-- The `Field ... is not defined` error, with `rangeFromNode` of the key
string node (server.ts:1409-1414). -/
def fieldNotDefinedDiag (fieldName typeId : String) (off len : Nat) : Diag :=
  { severity := 1
    message := "Field \"" ++ fieldName ++ "\" is not defined for ability type \""
      ++ typeId ++ "\"."
    rangeStart := off
    rangeEnd := off + len
    source := diagnosticSourceTag }

/-- The scan of `findPropertyValueNode` (server.ts:949-966): the first property
child with at least two children whose string key equals the name yields its
value node. -/
def findPropValueLoop (propertyName : String) : List TNode → Option TNode
  | [] => none
  | TNode.propN (TNode.strN s _ _ :: valueNode :: _) _ _ :: rest =>
    if s = propertyName then some valueNode else findPropValueLoop propertyName rest
  | _ :: rest => findPropValueLoop propertyName rest

def findPropertyValueNode (objectNode : TNode) (propertyName : String) : Option TNode :=
  findPropValueLoop propertyName (tnChildren objectNode)

def allowedAbilityFields : List String := ["type", "conditions"]

/-- The property loop of `validateAbilityObject` (server.ts:1394-1415):
non-property children and non-string keys are skipped, allowed or known field
names are skipped, anything else produces one error at the key's range. -/
def fieldLoop (ability : AbilityRecord) (typeId : String) : List TNode → List Diag
  | [] => []
  | TNode.propN (TNode.strN fieldName koff klen :: _) _ _ :: rest =>
    if allowedAbilityFields.contains fieldName
        || (abilityFieldNames ability).contains fieldName then
      fieldLoop ability typeId rest
    else
      fieldNotDefinedDiag fieldName typeId koff klen :: fieldLoop ability typeId rest
  | _ :: rest => fieldLoop ability typeId rest

/-- Embeds `validateAbilityObject` (server.ts:1372-1416).  `amap` is the
current ability id-map snapshot. -/
def validateAbilityObject (amap : String → Option AbilityRecord) (objectNode : TNode) :
    List Diag :=
  match findPropertyValueNode objectNode "type" with
  | some (TNode.strN typeId toff tlen) =>
    match amap typeId with
    | none => [unknownTypeDiag typeId toff tlen]
    | some ability =>
      if abilityFieldNames ability = [] then []
      else fieldLoop ability typeId (tnChildren objectNode)
  | _ => []

/-- Claim-side recomputation of the field errors: one diagnostic per property
whose string key is neither always-allowed nor in the record's field index,
at that key's range. -/
def bogusFieldDiags (ability : AbilityRecord) (typeId : String) (props : List TNode) :
    List Diag :=
  props.filterMap (fun child =>
    match child with
    | TNode.propN (TNode.strN fieldName koff klen :: _) _ _ =>
      if allowedAbilityFields.contains fieldName
          || (abilityFieldNames ability).contains fieldName then none
      else some (fieldNotDefinedDiag fieldName typeId koff klen)
    | _ => none)

theorem fieldLoop_eq_bogusFieldDiags (ability : AbilityRecord) (typeId : String)
    (props : List TNode) :
    fieldLoop ability typeId props = bogusFieldDiags ability typeId props := by
  induction props with
  | nil => rfl
  | cons child rest ih =>
    cases child with
    | propN cs o l =>
      cases cs with
      | nil => simpa [fieldLoop, bogusFieldDiags] using ih
      | cons keyNode crest =>
        cases keyNode with
        | strN s ko kl =>
          by_cases hcond : s ∈ allowedAbilityFields ∨ s ∈ abilityFieldNames ability
          · simpa [fieldLoop, bogusFieldDiags, hcond] using ih
          · simpa [fieldLoop, bogusFieldDiags, hcond] using ih
        | numN a b c => simpa [fieldLoop, bogusFieldDiags] using ih
        | boolN a b c => simpa [fieldLoop, bogusFieldDiags] using ih
        | nullN a b => simpa [fieldLoop, bogusFieldDiags] using ih
        | objN a b c => simpa [fieldLoop, bogusFieldDiags] using ih
        | arrN a b c => simpa [fieldLoop, bogusFieldDiags] using ih
        | propN a b c => simpa [fieldLoop, bogusFieldDiags] using ih
    | strN a b c => simpa [fieldLoop, bogusFieldDiags] using ih
    | numN a b c => simpa [fieldLoop, bogusFieldDiags] using ih
    | boolN a b c => simpa [fieldLoop, bogusFieldDiags] using ih
    | nullN a b => simpa [fieldLoop, bogusFieldDiags] using ih
    | objN a b c => simpa [fieldLoop, bogusFieldDiags] using ih
    | arrN a b c => simpa [fieldLoop, bogusFieldDiags] using ih

/-- C2: for an object classified as an ability entry whose `type` value is a
string absent from the ability snapshot's id-map, validation emits exactly one
error diagnostic; its message names the unknown ability type, its range spans
the type value string node, and no field-level diagnostic is emitted for any
property of that object (the result is exactly the singleton). -/
theorem c2_unknown_type_diag (amap : String → Option AbilityRecord)
    (props : List TNode) (o l : Nat) (typeId : String) (toff tlen : Nat)
    (htype : findPropertyValueNode (TNode.objN props o l) "type"
      = some (TNode.strN typeId toff tlen))
    (hunknown : amap typeId = none) :
    validateAbilityObject amap (TNode.objN props o l) = [unknownTypeDiag typeId toff tlen]
    ∧ ∀ d ∈ validateAbilityObject amap (TNode.objN props o l),
        d.message = "Unknown ability type \"" ++ typeId ++ "\"."
        ∧ d.rangeStart = toff ∧ d.rangeEnd = toff + tlen ∧ d.severity = 1 := by
  have hval : validateAbilityObject amap (TNode.objN props o l)
      = [unknownTypeDiag typeId toff tlen] := by
    simp only [validateAbilityObject, htype, hunknown]
  refine ⟨hval, ?_⟩
  intro d hd
  rw [hval] at hd
  simp only [List.mem_singleton] at hd
  subst hd
  exact ⟨rfl, rfl, rfl, rfl⟩

/-- Witness for C2 at a concrete object `{"type": "unknown:id", "power": 1}`
against an empty snapshot. -/
theorem c2_unknown_type_diag_witness :
    validateAbilityObject (fun _ => none)
        (TNode.objN [TNode.propN [TNode.strN "type" 10 6, TNode.strN "unknown:id" 18 12] 10 20,
                     TNode.propN [TNode.strN "power" 32 7, TNode.numN 1 41 1] 32 10] 0 44)
      = [unknownTypeDiag "unknown:id" 18 12]
    ∧ ∀ d ∈ validateAbilityObject (fun _ => none)
        (TNode.objN [TNode.propN [TNode.strN "type" 10 6, TNode.strN "unknown:id" 18 12] 10 20,
                     TNode.propN [TNode.strN "power" 32 7, TNode.numN 1 41 1] 32 10] 0 44),
        d.message = "Unknown ability type \"" ++ "unknown:id" ++ "\"."
        ∧ d.rangeStart = 18 ∧ d.rangeEnd = 18 + 12 ∧ d.severity = 1 :=
  c2_unknown_type_diag (fun _ => none) _ 0 44 "unknown:id" 18 12 rfl rfl

/-- C3: for an ability entry whose `type` resolves to a known record: if the
record has at least one field definition, the emitted diagnostics are exactly
one error per property key that is neither `type`/`conditions` nor in the
record's field index, each spanning that key's quoted text; if the record has
no field definitions at all, no field-level diagnostics are emitted. -/
theorem c3_field_diags (amap : String → Option AbilityRecord)
    (props : List TNode) (o l : Nat) (typeId : String) (toff tlen : Nat)
    (ability : AbilityRecord)
    (htype : findPropertyValueNode (TNode.objN props o l) "type"
      = some (TNode.strN typeId toff tlen))
    (hability : amap typeId = some ability) :
    (ability.fields = [] → validateAbilityObject amap (TNode.objN props o l) = [])
    ∧ (ability.fields ≠ [] →
        validateAbilityObject amap (TNode.objN props o l)
          = bogusFieldDiags ability typeId props) := by
  constructor
  · intro hf
    simp only [validateAbilityObject, htype, hability, abilityFieldNames, hf, List.map_nil,
      if_true]
  · intro hf
    have hne : abilityFieldNames ability ≠ [] := by
      simp only [abilityFieldNames, ne_eq, List.map_eq_nil_iff]
      exact hf
    simp only [validateAbilityObject, htype, hability, if_neg hne, tnChildren]
    exact fieldLoop_eq_bogusFieldDiags ability typeId props

def demoAbilityRecord : AbilityRecord :=
  { id := "palladium:dummy", name := "Dummy", snippet := "s", exampleText := "e",
    fields := [{ name := "power" }] }

def demoAbilityRecordNoFields : AbilityRecord :=
  { id := "palladium:dummy", name := "Dummy", snippet := "s", exampleText := "e",
    fields := [] }

def demoProps : List TNode :=
  [TNode.propN [TNode.strN "type" 4 6, TNode.strN "palladium:dummy" 12 17] 4 25,
   TNode.propN [TNode.strN "bogus_field" 34 13, TNode.numN 1 49 1] 34 16]

/-- Witness for C3: a known record with one field rejects exactly the one
bogus key (the computed result is the single `bogus_field` error at the key's
range), and a record without field definitions emits nothing. -/
theorem c3_field_diags_witness :
    validateAbilityObject (fun i => if i = "palladium:dummy" then some demoAbilityRecord else none)
        (TNode.objN demoProps 0 52)
      = bogusFieldDiags demoAbilityRecord "palladium:dummy" demoProps
    ∧ validateAbilityObject
        (fun i => if i = "palladium:dummy" then some demoAbilityRecordNoFields else none)
        (TNode.objN demoProps 0 52)
      = []
    ∧ bogusFieldDiags demoAbilityRecord "palladium:dummy" demoProps
      = [fieldNotDefinedDiag "bogus_field" "palladium:dummy" 34 13] := by
  refine ⟨?_, ?_, rfl⟩
  · exact (c3_field_diags
      (fun i => if i = "palladium:dummy" then some demoAbilityRecord else none)
      demoProps 0 52 "palladium:dummy" 12 17 demoAbilityRecord rfl rfl).2
      (by simp [demoAbilityRecord])
  · exact (c3_field_diags
      (fun i => if i = "palladium:dummy" then some demoAbilityRecordNoFields else none)
      demoProps 0 52 "palladium:dummy" 12 17 demoAbilityRecordNoFields rfl rfl).1 rfl

/-
Field-name completion (C6).  The protocol items keep the fields the claim
touches; `usedFields` models the JS `Set` by a list queried only for
membership, and the `ignoreProperty` reference identity of the source is
rendered as the property's position among the object's children.
-/

/-- `String.prototype.trim`, computably: strip the whitespace characters from
both ends (structural on the character list). -/
def strTrim (s : String) : String :=
  ⟨((s.data.dropWhile Char.isWhitespace).reverse.dropWhile Char.isWhitespace).reverse⟩

def strIncludes (hay needle : String) : Bool :=
  hay.data.tails.any (fun t => needle.data.isPrefixOf t)

/-- Embeds `createPlaceholder` (server.ts:1303-1306). -/
def createPlaceholder (defaultValue : String) : String :=
  let safe := escapeSnippet (if defaultValue = "" then "value" else defaultValue)
  "$\x7b1:" ++ safe ++ "\x7d"

/-- Embeds `stringSnippetPlaceholder` (server.ts:1308-1310). -/
def stringSnippetPlaceholder (defaultValue : String) : String :=
  "\"" ++ createPlaceholder (if defaultValue = "" then "value" else defaultValue) ++ "\""

/-- Embeds `normalizeFallbackSnippet` + `tryParseJsonValue`
(server.ts:1247-1301): a trimmed fallback of `""` or `/` is dropped; a
JSON-parseable fallback renders as a typed placeholder (arrays/objects stay
literal); anything else becomes a quoted placeholder of the raw text. -/
def normalizeFallbackSnippet (raw : Option String) : Option String :=
  match raw with
  | none => none
  | some r =>
    let trimmed := strTrim r
    if trimmed = "" ∨ trimmed = "/" then none
    else
      match parseJson trimmed with
      | some (Json.str s) => some (stringSnippetPlaceholder s)
      | some (Json.num _) => some (createPlaceholder trimmed)
      | some (Json.bool b) => some (createPlaceholder (if b then "true" else "false"))
      | some Json.null => some (createPlaceholder "null")
      | some (Json.arr _) => some trimmed
      | some (Json.obj _) => some trimmed
      | none => some (stringSnippetPlaceholder trimmed)

/-- Embeds `buildFieldValueSnippet` (server.ts:1199-1245): documented fallback
first, then the ordered substring categories over the lower-cased type hint. -/
def buildFieldValueSnippet (field : AbilityField) : String :=
  match normalizeFallbackSnippet field.fallback with
  | some s => s
  | none =>
    let normalizedType := (field.type.getD "").toLower
    if strIncludes normalizedType "bool" then createPlaceholder "false"
    else if strIncludes normalizedType "int" || strIncludes normalizedType "float"
        || strIncludes normalizedType "double" || strIncludes normalizedType "number"
        || strIncludes normalizedType "amount" || strIncludes normalizedType "cost"
        || strIncludes normalizedType "range" || strIncludes normalizedType "cooldown"
        || strIncludes normalizedType "duration" then createPlaceholder "0"
    else if strIncludes normalizedType "list" || strIncludes normalizedType "array"
        || strIncludes normalizedType "vec" || strIncludes normalizedType "command"
        || strIncludes normalizedType "conditions" then "[\n    $\x7b1\x7d\n]"
    else if strIncludes normalizedType "object" || strIncludes normalizedType "component"
        || strIncludes normalizedType "description"
        || strIncludes normalizedType "compound" then "\x7b\n    $\x7b1\x7d\n\x7d"
    else stringSnippetPlaceholder "value"

/-- Embeds `buildFieldInsertText` (server.ts:1195-1197). -/
def buildFieldInsertText (field : AbilityField) : String :=
  "\"" ++ field.name ++ "\": " ++ buildFieldValueSnippet field

def optNonemptyStr (s : Option String) : List String :=
  match s with
  | some t => if t = "" then [] else [t]
  | none => []

/-- Embeds `buildFieldDocumentation` (server.ts:1179-1193), with JavaScript
truthiness dropping empty strings. -/
def buildFieldDocumentation (field : AbilityField) : Option String :=
  let parts1 := optNonemptyStr (field.description.map strTrim)
  let meta :=
    (match field.type with
     | some t => if t = "" then [] else ["**Type:** " ++ t]
     | none => [])
    ++ (match field.required with
        | some r => ["**Required:** " ++ (if r then "Yes" else "No")]
        | none => [])
    ++ (match field.fallback with
        | some f => if f = "" then [] else ["**Default:** " ++ f]
        | none => [])
  let parts := parts1 ++ (if meta = [] then [] else [joinSep "\n\n" meta])
  if parts = [] then none else some (joinSep "\n\n" parts)

structure AbilityFieldCompletionContext where
  ability : AbilityRecord
  replaceStart : Nat
  replaceEnd : Nat
  usedFields : List String
deriving DecidableEq

structure CompletionItemM where
  label : String
  detail : Option String
  documentation : Option String
  rangeStart : Nat
  rangeEnd : Nat
  newText : String
deriving DecidableEq

/-- Embeds `buildAbilityFieldCompletions` (server.ts:1155-1177): one property
item per schema field whose name is not already used, with the computed
replace range and snippet insert text. -/
def buildAbilityFieldCompletions (context : AbilityFieldCompletionContext) :
    List CompletionItemM :=
  context.ability.fields.filterMap (fun field =>
    if context.usedFields.contains field.name then none
    else some
      { label := field.name
        detail := field.type
        documentation := buildFieldDocumentation field
        rangeStart := context.replaceStart
        rangeEnd := context.replaceEnd
        newText := buildFieldInsertText field })

/-- Embeds `collectUsedFieldNames` (server.ts:1312-1331): the string keys of
the object's property children, skipping the property being edited, which the
source identifies by reference and this model by its child index. -/
def collectUsedAux : Nat → List TNode → Option Nat → List String
  | _, [], _ => []
  | i, child :: rest, ignore =>
    match child with
    | TNode.propN (keyNode :: _) _ _ =>
      if ignore = some i then collectUsedAux (i + 1) rest ignore
      else
        match keyNode with
        | TNode.strN k _ _ => k :: collectUsedAux (i + 1) rest ignore
        | _ => collectUsedAux (i + 1) rest ignore
    | _ => collectUsedAux (i + 1) rest ignore

def collectUsedFieldNames (props : List TNode) (ignore : Option Nat) : List String :=
  collectUsedAux 0 props ignore

/-- C6: a field-completion context built from an entity object's sibling keys
(excluding the property being edited) never offers an item whose label is one
of those sibling keys. -/
theorem c6_no_duplicate_completions (ability : AbilityRecord) (rs re : Nat)
    (props : List TNode) (ignore : Option Nat) (item : CompletionItemM)
    (h : item ∈ buildAbilityFieldCompletions
      { ability := ability, replaceStart := rs, replaceEnd := re,
        usedFields := collectUsedFieldNames props ignore }) :
    (collectUsedFieldNames props ignore).contains item.label = false := by
  rcases List.mem_filterMap.mp h with ⟨field, hf, heq⟩
  by_cases hused : (collectUsedFieldNames props ignore).contains field.name = true
  · rw [if_pos hused] at heq
    exact absurd heq (by simp)
  · have hnone : (collectUsedFieldNames props ignore).contains field.name = false :=
      Bool.eq_false_iff.mpr hused
    rw [if_neg (by rw [hnone]; exact Bool.false_ne_true)] at heq
    have hlabel : item.label = field.name := by
      cases heq.symm
      rfl
    rw [hlabel]
    exact hnone

def demoSiblingProps : List TNode :=
  [TNode.propN [TNode.strN "power" 4 7, TNode.numN 1 13 1] 4 10]

def demoCompletionAbility : AbilityRecord :=
  { id := "palladium:dummy", name := "Dummy", snippet := "s", exampleText := "e",
    fields := [{ name := "power", type := some "number" },
               { name := "cooldown", type := some "number" }] }

def demoCompletionContext : AbilityFieldCompletionContext :=
  { ability := demoCompletionAbility
    replaceStart := 3
    replaceEnd := 5
    usedFields := collectUsedFieldNames demoSiblingProps none }

def demoCooldownItem : CompletionItemM :=
  { label := "cooldown"
    detail := some "number"
    documentation := buildFieldDocumentation { name := "cooldown", type := some "number" }
    rangeStart := 3
    rangeEnd := 5
    newText := buildFieldInsertText { name := "cooldown", type := some "number" } }

/-- Witness for C6: with sibling key `power` present, the completion list for
a two-field record is exactly the `cooldown` item, whose label is not among
the used sibling keys. -/
theorem c6_no_duplicate_completions_witness :
    demoCooldownItem ∈ buildAbilityFieldCompletions demoCompletionContext
    ∧ (collectUsedFieldNames demoSiblingProps none).contains demoCooldownItem.label = false := by
  have hcomp : buildAbilityFieldCompletions demoCompletionContext = [demoCooldownItem] := rfl
  have hmem : demoCooldownItem ∈ buildAbilityFieldCompletions demoCompletionContext := by
    rw [hcomp]
    exact List.mem_singleton_self _
  exact ⟨hmem, c6_no_duplicate_completions demoCompletionAbility 3 5 demoSiblingProps none
    demoCooldownItem hmem⟩

/-
Trailing-comma decision for whole-entity snippet completions (C9).
-/

/-- The scan loop of `shouldAddTrailingComma` (server.ts:855-874) over the
text from the cursor offset on. -/
def commaScanChars : List Char → Bool
  | [] => false
  | c :: rest =>
    if jsonWs c then commaScanChars rest
    else !(c = '}' || c = ']')

def shouldAddTrailingComma (text : String) (offset : Nat) : Bool :=
  commaScanChars (text.data.drop offset)

theorem commaScanChars_iff (l : List Char) :
    commaScanChars l = true ↔
      ∃ c, l.find? (fun ch => !jsonWs ch) = some c ∧ c ≠ '}' ∧ c ≠ ']' := by
  induction l with
  | nil => simp [commaScanChars]
  | cons c rest ih =>
    by_cases hws : jsonWs c = true
    · rw [show commaScanChars (c :: rest) = commaScanChars rest from by
        simp [commaScanChars, hws]]
      rw [ih]
      constructor
      · rintro ⟨c', hfind, h1, h2⟩
        exact ⟨c', by simp [List.find?, hws, hfind], h1, h2⟩
      · rintro ⟨c', hfind, h1, h2⟩
        rw [List.find?] at hfind
        simp only [hws, Bool.not_true] at hfind
        exact ⟨c', hfind, h1, h2⟩
    · have hws' : jsonWs c = false := Bool.eq_false_iff.mpr hws
      rw [show commaScanChars (c :: rest) = !(c = '}' || c = ']') from by
        simp [commaScanChars, hws']]
      have hfind : (c :: rest).find? (fun ch => !jsonWs ch) = some c := by
        rw [List.find?]
        simp [hws']
      constructor
      · intro hb
        refine ⟨c, hfind, ?_, ?_⟩
        · intro hc
          subst hc
          simp at hb
        · intro hc
          subst hc
          simp at hb
      · rintro ⟨c', hfind', h1, h2⟩
        rw [hfind] at hfind'
        injection hfind' with hcc
        subst hcc
        simp [h1, h2]

/-- C9: a trailing comma is appended to a whole-entity snippet iff there is a
non-whitespace character at or after the cursor offset and the first such
character is neither `}` nor `]`; at (or past) end of document no comma is
appended. -/
theorem c9_trailing_comma (text : String) (offset : Nat) :
    (shouldAddTrailingComma text offset = true ↔
      ∃ c, (text.data.drop offset).find? (fun ch => !jsonWs ch) = some c
        ∧ c ≠ '}' ∧ c ≠ ']')
    ∧ (text.length ≤ offset → shouldAddTrailingComma text offset = false) := by
  constructor
  · exact commaScanChars_iff _
  · intro hle
    have hdrop : text.data.drop offset = [] := by
      apply List.drop_eq_nil_of_le
      exact hle
    simp only [shouldAddTrailingComma]
    rw [hdrop]
    rfl

/-
The diagnostics pass of `validateDocument` (server.ts:1333-1364) over a whole
parse tree (C10).  The `getLocation(text, node.offset).path` of a visited
node is reconstructed structurally: property values extend the path with
their key, array items with their index.  `parseTree` of the document text is
an external primitive (spec section 4.1); its result — a tree, or none for
unparseable text — is the model's input.
-/

inductive PathSeg where
  | key (s : String)
  | index (n : Nat)
deriving DecidableEq

/-- `path.some(segment => segment === name)` for a string segment. -/
def pathHasKey (segs : List PathSeg) (name : String) : Bool :=
  segs.any (fun s =>
    match s with
    | PathSeg.key k => k = name
    | PathSeg.index _ => false)

/-- Embeds `docKindFromPath` (server.ts:887-897): `isConditionPath` is checked
before `isAbilityPath`. -/
def docKindFromPath (p : List PathSeg) : Option DocKind :=
  if pathHasKey p "conditions" then some DocKind.condition
  else if pathHasKey p "abilities" then some DocKind.ability
  else none

mutual

/-- The `visitNode` walk of `validateDocument`: every object node whose
structural path classifies as an ability entry is validated, and all children
are visited (property values under their key segment, array items under their
index segment). -/
def collectDiags (amap : String → Option AbilityRecord) :
    List PathSeg → TNode → List Diag
  | path, TNode.objN props o l =>
    (if docKindFromPath path = some DocKind.ability
     then validateAbilityObject amap (TNode.objN props o l) else [])
      ++ collectChildren amap path props
  | path, TNode.arrN items _ _ => collectIndexed amap path 0 items
  | path, TNode.propN (TNode.strN k _ _ :: rest) _ _ =>
    collectChildren amap (path ++ [PathSeg.key k]) rest
  | path, TNode.propN cs _ _ => collectChildren amap path cs
  | _, _ => []

def collectChildren (amap : String → Option AbilityRecord) :
    List PathSeg → List TNode → List Diag
  | _, [] => []
  | path, c :: rest => collectDiags amap path c ++ collectChildren amap path rest

def collectIndexed (amap : String → Option AbilityRecord) :
    List PathSeg → Nat → List TNode → List Diag
  | _, _, [] => []
  | path, i, c :: rest =>
    collectDiags amap (path ++ [PathSeg.index i]) c ++ collectIndexed amap path (i + 1) rest

end

/-- Embeds `validateDocument`'s published result: the `finally` block sends
the accumulated diagnostics on every invocation, so the published list is a
total function of the parse result — empty when `parseTree` yields nothing. -/
def validateDocumentPublished (amap : String → Option AbilityRecord)
    (parsed : Option TNode) : List Diag :=
  match parsed with
  | some tree => collectDiags amap [] tree
  | none => []

/-- The only diagnostics this validator can build: unknown-type errors and
undefined-field errors (never a parse-error diagnostic). -/
def isAbilityDiagShape (d : Diag) : Prop :=
  (∃ ts off len, d = unknownTypeDiag ts off len)
  ∨ (∃ fn ts off len, d = fieldNotDefinedDiag fn ts off len)

theorem fieldLoop_shape (ability : AbilityRecord) (typeId : String) (props : List TNode)
    (d : Diag) (hd : d ∈ fieldLoop ability typeId props) : isAbilityDiagShape d := by
  rw [fieldLoop_eq_bogusFieldDiags] at hd
  rcases List.mem_filterMap.mp hd with ⟨child, _, heq⟩
  cases child with
  | propN cs o l =>
    cases cs with
    | nil => exact Option.noConfusion heq
    | cons keyNode crest =>
      cases keyNode with
      | strN fn ko kl =>
        have heq2 : (if (allowedAbilityFields.contains fn
              || (abilityFieldNames ability).contains fn) = true then (none : Option Diag)
            else some (fieldNotDefinedDiag fn typeId ko kl)) = some d := heq
        by_cases hcond : (allowedAbilityFields.contains fn
            || (abilityFieldNames ability).contains fn) = true
        · rw [if_pos hcond] at heq2
          exact Option.noConfusion heq2
        · rw [if_neg hcond] at heq2
          injection heq2 with heq3
          exact Or.inr ⟨fn, typeId, ko, kl, heq3.symm⟩
      | numN a b c => exact Option.noConfusion heq
      | boolN a b c => exact Option.noConfusion heq
      | nullN a b => exact Option.noConfusion heq
      | objN a b c => exact Option.noConfusion heq
      | arrN a b c => exact Option.noConfusion heq
      | propN a b c => exact Option.noConfusion heq
  | strN a b c => exact Option.noConfusion heq
  | numN a b c => exact Option.noConfusion heq
  | boolN a b c => exact Option.noConfusion heq
  | nullN a b => exact Option.noConfusion heq
  | objN a b c => exact Option.noConfusion heq
  | arrN a b c => exact Option.noConfusion heq

theorem validateAbilityObject_shape (amap : String → Option AbilityRecord) (node : TNode)
    (d : Diag) (hd : d ∈ validateAbilityObject amap node) : isAbilityDiagShape d := by
  unfold validateAbilityObject at hd
  rcases hfind : findPropertyValueNode node "type" with _ | tn
  · rw [hfind] at hd
    exact absurd hd (List.not_mem_nil d)
  · rw [hfind] at hd
    cases tn with
    | strN s toff tlen =>
      have hd2 : d ∈ (match amap s with
          | none => [unknownTypeDiag s toff tlen]
          | some ability =>
            if abilityFieldNames ability = [] then []
            else fieldLoop ability s (tnChildren node)) := hd
      rcases hmap : amap s with _ | ab
      · rw [hmap] at hd2
        simp only [List.mem_singleton] at hd2
        exact Or.inl ⟨s, toff, tlen, hd2⟩
      · rw [hmap] at hd2
        have hd3 : d ∈ (if abilityFieldNames ab = [] then []
            else fieldLoop ab s (tnChildren node)) := hd2
        by_cases hf : abilityFieldNames ab = []
        · rw [if_pos hf] at hd3
          exact absurd hd3 (List.not_mem_nil d)
        · rw [if_neg hf] at hd3
          exact fieldLoop_shape ab s _ d hd3
    | numN a b c => exact absurd hd (List.not_mem_nil d)
    | boolN a b c => exact absurd hd (List.not_mem_nil d)
    | nullN a b => exact absurd hd (List.not_mem_nil d)
    | objN a b c => exact absurd hd (List.not_mem_nil d)
    | arrN a b c => exact absurd hd (List.not_mem_nil d)
    | propN a b c => exact absurd hd (List.not_mem_nil d)

theorem collectChildren_mem (amap : String → Option AbilityRecord) (path : List PathSeg)
    (cs : List TNode) (d : Diag) (hd : d ∈ collectChildren amap path cs) :
    ∃ c ∈ cs, d ∈ collectDiags amap path c := by
  induction cs with
  | nil => exact absurd hd (List.not_mem_nil d)
  | cons c rest ih =>
    rcases List.mem_append.mp hd with h | h
    · exact ⟨c, List.mem_cons_self c rest, h⟩
    · rcases ih h with ⟨c', hc', hd'⟩
      exact ⟨c', List.mem_cons_of_mem c hc', hd'⟩

theorem collectIndexed_mem (amap : String → Option AbilityRecord) (path : List PathSeg)
    (cs : List TNode) (d : Diag) :
    ∀ i, d ∈ collectIndexed amap path i cs →
      ∃ c ∈ cs, ∃ j, d ∈ collectDiags amap (path ++ [PathSeg.index j]) c := by
  induction cs with
  | nil =>
    intro i hd
    exact absurd hd (List.not_mem_nil d)
  | cons c rest ih =>
    intro i hd
    rcases List.mem_append.mp hd with h | h
    · exact ⟨c, List.mem_cons_self c rest, i, h⟩
    · rcases ih (i + 1) h with ⟨c', hc', j, hd'⟩
      exact ⟨c', List.mem_cons_of_mem c hc', j, hd'⟩

theorem collectDiags_shape_fuel (amap : String → Option AbilityRecord) :
    ∀ (fuel : Nat) (n : TNode), sizeOf n ≤ fuel →
      ∀ (path : List PathSeg) (d : Diag), d ∈ collectDiags amap path n →
        isAbilityDiagShape d := by
  intro fuel
  induction fuel with
  | zero =>
    intro n hsz
    cases n <;> simp at hsz
  | succ f ih =>
    intro n hsz path d hd
    cases n with
    | objN props o l =>
      rcases List.mem_append.mp hd with h | h
      · by_cases hk : docKindFromPath path = some DocKind.ability
        · rw [if_pos hk] at h
          exact validateAbilityObject_shape amap _ d h
        · rw [if_neg hk] at h
          exact absurd h (List.not_mem_nil d)
      · rcases collectChildren_mem amap path props d h with ⟨c, hc, hdc⟩
        have h1 := List.sizeOf_lt_of_mem hc
        have h2 : sizeOf (TNode.objN props o l) = 1 + sizeOf props + sizeOf o + sizeOf l := by
          simp
        exact ih c (by omega) path d hdc
    | arrN items o l =>
      rcases collectIndexed_mem amap path items d 0 hd with ⟨c, hc, j, hdc⟩
      have h1 := List.sizeOf_lt_of_mem hc
      have h2 : sizeOf (TNode.arrN items o l) = 1 + sizeOf items + sizeOf o + sizeOf l := by
        simp
      exact ih c (by omega) _ d hdc
    | propN cs o l =>
      have h2 : sizeOf (TNode.propN cs o l) = 1 + sizeOf cs + sizeOf o + sizeOf l := by
        simp
      cases cs with
      | nil => exact absurd hd (List.not_mem_nil d)
      | cons keyNode crest =>
        have h3 : sizeOf (keyNode :: crest) = 1 + sizeOf keyNode + sizeOf crest := by
          simp
        cases keyNode with
        | strN k ko kl =>
          rcases collectChildren_mem amap (path ++ [PathSeg.key k]) crest d hd with ⟨c, hc, hdc⟩
          have h1 := List.sizeOf_lt_of_mem hc
          exact ih c (by omega) _ d hdc
        | numN a b c0 =>
          rcases collectChildren_mem amap path _ d hd with ⟨c, hc, hdc⟩
          have h1 := List.sizeOf_lt_of_mem hc
          have h4 := List.sizeOf_lt_of_mem hc
          rcases List.mem_cons.mp hc with hceq | hcrest
          · subst hceq
            exact absurd hdc (List.not_mem_nil d)
          · have h5 := List.sizeOf_lt_of_mem hcrest
            exact ih c (by omega) _ d hdc
        | boolN a b c0 =>
          rcases collectChildren_mem amap path _ d hd with ⟨c, hc, hdc⟩
          rcases List.mem_cons.mp hc with hceq | hcrest
          · subst hceq
            exact absurd hdc (List.not_mem_nil d)
          · have h5 := List.sizeOf_lt_of_mem hcrest
            exact ih c (by omega) _ d hdc
        | nullN a b =>
          rcases collectChildren_mem amap path _ d hd with ⟨c, hc, hdc⟩
          rcases List.mem_cons.mp hc with hceq | hcrest
          · subst hceq
            exact absurd hdc (List.not_mem_nil d)
          · have h5 := List.sizeOf_lt_of_mem hcrest
            exact ih c (by omega) _ d hdc
        | objN a b c0 =>
          rcases collectChildren_mem amap path _ d hd with ⟨c, hc, hdc⟩
          have h1 := List.sizeOf_lt_of_mem hc
          exact ih c (by omega) _ d hdc
        | arrN a b c0 =>
          rcases collectChildren_mem amap path _ d hd with ⟨c, hc, hdc⟩
          have h1 := List.sizeOf_lt_of_mem hc
          exact ih c (by omega) _ d hdc
        | propN a b c0 =>
          rcases collectChildren_mem amap path _ d hd with ⟨c, hc, hdc⟩
          have h1 := List.sizeOf_lt_of_mem hc
          exact ih c (by omega) _ d hdc
    | strN a b c => exact absurd hd (List.not_mem_nil d)
    | numN a b c => exact absurd hd (List.not_mem_nil d)
    | boolN a b c => exact absurd hd (List.not_mem_nil d)
    | nullN a b => exact absurd hd (List.not_mem_nil d)

/-- C10: `validateDocument` publishes a diagnostics list on every invocation
(the published list is a total function of the parse outcome); when the text
fails to parse the published list is empty, so stale diagnostics are cleared
and no parse-error diagnostic is emitted; and every diagnostic it can publish
is an ability diagnostic (unknown type or undefined field) carrying the fixed
source tag — never a parse error. -/
theorem c10_validate_publish (amap : String → Option AbilityRecord) :
    validateDocumentPublished amap none = []
    ∧ ∀ (parsed : Option TNode) (d : Diag), d ∈ validateDocumentPublished amap parsed →
        isAbilityDiagShape d ∧ d.source = diagnosticSourceTag := by
  refine ⟨rfl, ?_⟩
  intro parsed d hd
  cases parsed with
  | none => exact absurd hd (List.not_mem_nil d)
  | some tree =>
    have hshape : isAbilityDiagShape d :=
      collectDiags_shape_fuel amap (sizeOf tree) tree le_rfl [] d hd
    refine ⟨hshape, ?_⟩
    rcases hshape with ⟨ts, off, len, hdeq⟩ | ⟨fn, ts, off, len, hdeq⟩
    · rw [hdeq]
      rfl
    · rw [hdeq]
      rfl

/-
Schema reload fallback behaviour (C7).  The asynchronous reload bodies reduce
to pure outcome transitions: the `resolve*` call either throws (`error`) or
yields an entry list (possibly empty — missing, unreadable and unparseable
source files all surface as `[]` from `loadFromFile`/`resolveConditions`).
The `Bool` component records that the `finally` block re-validates all open
documents on every path.
-/

/-- Embeds `createFallbackAbilities` (server.ts:2121-2162). -/
def createFallbackAbilities : List AbilityRecord :=
  [{ id := "palladium:dummy"
     name := "Fallback Power"
     description := some "Sample data – real abilities load from mods/documentation/palladium."
     exampleText := "\x7b\n    \"type\": \"palladium:blackwhip_detach\",\n    \"power\": 1,\n    \"cooldown\": 10,\n    \"conditions\": \x7b\n        \"enabling\": [],\n        \"unlocking\": []\n    \x7d\n\x7d"
     snippet := "\x7b\n    \"type\": \"palladium:dummy\",\n    \"power\": $\x7b1:1\x7d,\n    \"cooldown\": $\x7b2:10\x7d,\n    \"conditions\": \x7b\n        \"enabling\": [],\n        \"unlocking\": []\n    \x7d\n\x7d"
     fields := [{ name := "power", type := some "number", description := some "Sample field" },
                { name := "cooldown", type := some "number", description := some "Sample field" }] }]

def energyRendererCommonFields : List AbilityField :=
  [{ name := "type", type := some "string", description := some "Renderer type id" },
   { name := "body_part", type := some "string" },
   { name := "glow_color", type := some "string" },
   { name := "core_color", type := some "string" },
   { name := "glow_opacity", type := some "number" },
   { name := "core_opacity", type := some "number" },
   { name := "size", type := some "vec2/array" },
   { name := "bloom", type := some "number" },
   { name := "rotation", type := some "number" },
   { name := "rotation_speed", type := some "number" },
   { name := "offset", type := some "vec3/array" },
   { name := "normal_transparency", type := some "boolean" }]

def energyRendererLightningExtra : List AbilityField :=
  [{ name := "segments", type := some "number" },
   { name := "frequency", type := some "number" },
   { name := "spread", type := some "number" }]

/-- Embeds `createFallbackEnergyRenderers` (server.ts:2002-2106). -/
def createFallbackEnergyRenderers : List AbilityRecord :=
  [{ id := "palladium:laser"
     name := "Laser"
     description := some "Fallback energy beam renderer snippet (real entries load from documentation)."
     source := some "fallback"
     exampleText := "\x7b\n    \"type\": \"palladium:laser\",\n    \"body_part\": \"head\",\n    \"glow_color\": \"#114880\",\n    \"core_color\": \"#257c12\",\n    \"glow_opacity\": 1,\n    \"core_opacity\": 0.5,\n    \"size\": [4, 4],\n    \"bloom\": 0,\n    \"rotation\": 10,\n    \"rotation_speed\": 20,\n    \"offset\": [-1, -11, 0],\n    \"normal_transparency\": true\n\x7d"
     snippet := "\x7b\n    \"type\": \"$\x7b1:palladium:laser\x7d\",\n    \"body_part\": \"$\x7b2:head\x7d\",\n    \"glow_color\": \"$\x7b3:#114880\x7d\",\n    \"core_color\": \"$\x7b4:#257c12\x7d\",\n    \"glow_opacity\": $\x7b5:1\x7d,\n    \"core_opacity\": $\x7b6:0.5\x7d,\n    \"size\": [$\x7b7:4\x7d, $\x7b8:4\x7d],\n    \"bloom\": $\x7b9:0\x7d,\n    \"rotation\": $\x7b10:10\x7d,\n    \"rotation_speed\": $\x7b11:20\x7d,\n    \"offset\": [$\x7b12:-1\x7d, $\x7b13:-11\x7d, $\x7b14:0\x7d],\n    \"normal_transparency\": $\x7b15:true\x7d\n\x7d"
     fields := energyRendererCommonFields },
   { id := "palladium:lightning"
     name := "Lightning"
     description := some "Fallback energy beam renderer snippet (real entries load from documentation)."
     source := some "fallback"
     exampleText := "\x7b\n    \"type\": \"palladium:lightning\",\n    \"body_part\": \"head\",\n    \"glow_color\": \"#114880\",\n    \"core_color\": \"#257c12\",\n    \"glow_opacity\": 0.75,\n    \"core_opacity\": 0.25,\n    \"size\": [3, 2],\n    \"segments\": 20,\n    \"frequency\": 12,\n    \"spread\": 1,\n    \"bloom\": 1,\n    \"rotation\": 10,\n    \"rotation_speed\": 20,\n    \"offset\": [-1, -11, 0],\n    \"normal_transparency\": true\n\x7d"
     snippet := "\x7b\n    \"type\": \"$\x7b1:palladium:lightning\x7d\",\n    \"body_part\": \"$\x7b2:head\x7d\",\n    \"glow_color\": \"$\x7b3:#114880\x7d\",\n    \"core_color\": \"$\x7b4:#257c12\x7d\",\n    \"glow_opacity\": $\x7b5:0.75\x7d,\n    \"core_opacity\": $\x7b6:0.25\x7d,\n    \"size\": [$\x7b7:3\x7d, $\x7b8:2\x7d],\n    \"segments\": $\x7b9:20\x7d,\n    \"frequency\": $\x7b10:12\x7d,\n    \"spread\": $\x7b11:1\x7d,\n    \"bloom\": $\x7b12:1\x7d,\n    \"rotation\": $\x7b13:10\x7d,\n    \"rotation_speed\": $\x7b14:20\x7d,\n    \"offset\": [$\x7b15:-1\x7d, $\x7b16:-11\x7d, $\x7b17:0\x7d],\n    \"normal_transparency\": $\x7b18:true\x7d\n\x7d"
     fields := energyRendererCommonFields ++ energyRendererLightningExtra }]

/-- Embeds the snapshot transition of `reloadAbilities` (server.ts:1458-1476):
a successful resolve publishes its entries, or the hardcoded fallback when
empty; an exception publishes the fallback; either way open documents are
re-validated (`finally`). -/
def reloadAbilitiesStep (outcome : Except Unit (List AbilityRecord)) :
    List AbilityRecord × Bool :=
  match outcome with
  | Except.ok entries => (if entries.length = 0 then createFallbackAbilities else entries, true)
  | Except.error _ => (createFallbackAbilities, true)

/-- Embeds the snapshot transition of `reloadConditions` (server.ts:1478-1496):
the resolved entries are published as-is — including the empty list — and an
exception publishes the empty list; re-validation always runs. -/
def reloadConditionsStep (outcome : Except Unit (List AbilityRecord)) :
    List AbilityRecord × Bool :=
  match outcome with
  | Except.ok entries => (entries, true)
  | Except.error _ => ([], true)

/-- Embeds the snapshot transition of `reloadEnergyRenderers`
(server.ts:1498-1516), symmetric to the abilities one. -/
def reloadEnergyRenderersStep (outcome : Except Unit (List AbilityRecord)) :
    List AbilityRecord × Bool :=
  match outcome with
  | Except.ok entries =>
    (if entries.length = 0 then createFallbackEnergyRenderers else entries, true)
  | Except.error _ => (createFallbackEnergyRenderers, true)

/-- A failed reload: the resolve step threw, or produced no entries (missing,
unreadable, or unparseable source file). -/
def failedLoad (outcome : Except Unit (List AbilityRecord)) : Prop :=
  outcome = Except.error () ∨ outcome = Except.ok []

def demoConditionRecord : AbilityRecord :=
  { id := "palladium:action", name := "Action", snippet := "s", exampleText := "e",
    fields := [] }

/-- Counterexample to C7 as stated: for the condition kind a reload that
produces no entries publishes the bare empty snapshot, which is neither the
(nonempty) previous snapshot nor any hardcoded fallback — the code has no
conditions fallback at all — so the last-known-good entries are discarded. -/
theorem c7_conditions_fallback_counterexample :
    (reloadConditionsStep (Except.ok [])).1 = []
    ∧ ([] : List AbilityRecord) ≠ [demoConditionRecord]
    ∧ (reloadConditionsStep (Except.ok [])).2 = true := by
  refine ⟨rfl, ?_, rfl⟩
  intro h
  exact List.noConfusion h

/-- C7 (amended): for the ability and energy-renderer kinds, a reload that
fails to produce entries publishes exactly the hardcoded (nonempty) fallback
record set and triggers re-validation of open documents; for the condition
kind, such a reload publishes the empty list — replacing any previous
snapshot — though re-validation is still triggered. -/
theorem c7_reload_fallback_amended :
    (∀ outcome, failedLoad outcome →
        reloadAbilitiesStep outcome = (createFallbackAbilities, true))
    ∧ (∀ outcome, failedLoad outcome →
        reloadEnergyRenderersStep outcome = (createFallbackEnergyRenderers, true))
    ∧ (∀ outcome, failedLoad outcome →
        reloadConditionsStep outcome = ([], true))
    ∧ createFallbackAbilities ≠ []
    ∧ createFallbackEnergyRenderers ≠ [] := by
  refine ⟨?_, ?_, ?_, ?_, ?_⟩
  · rintro outcome (rfl | rfl) <;> rfl
  · rintro outcome (rfl | rfl) <;> rfl
  · rintro outcome (rfl | rfl) <;> rfl
  · intro h
    exact List.noConfusion h
  · intro h
    exact List.noConfusion h

/-- Witness for the amended C7 at the concrete failed outcome `ok []`. -/
theorem c7_reload_fallback_amended_witness :
    reloadAbilitiesStep (Except.ok []) = (createFallbackAbilities, true)
    ∧ reloadEnergyRenderersStep (Except.ok []) = (createFallbackEnergyRenderers, true)
    ∧ reloadConditionsStep (Except.ok []) = ([], true) :=
  ⟨c7_reload_fallback_amended.1 (Except.ok []) (Or.inr rfl),
   c7_reload_fallback_amended.2.1 (Except.ok []) (Or.inr rfl),
   c7_reload_fallback_amended.2.2.1 (Except.ok []) (Or.inr rfl)⟩

/-
The schema loader (C8).  HTML traversal is the external boundary fixed by the
spec: a `SchemaBlock` carries what cheerio extracts from one `div[id]` block —
the trimmed id attribute, the first `h2`/`p` texts, the candidate code-sample
texts in the priority order `pre.json-snippet`, `pre code`, `pre`, and the
result of the field-table scan (`parseAbilityFields`).  Everything after that
extraction is modelled from the source.
-/

mutual

/-- `JSON.stringify(v)` without indentation, used by `formatFallbackValue`. -/
def stringifyCompact : Json → String
  | Json.null => "null"
  | Json.bool b => toString b
  | Json.num n => toString n
  | Json.str s => "\"" ++ jsonEscape s ++ "\""
  | Json.arr items => "[" ++ joinSep "," (stringifyCompactItems items) ++ "]"
  | Json.obj entries => "\x7b" ++ joinSep "," (stringifyCompactEntries entries) ++ "\x7d"

def stringifyCompactItems : List Json → List String
  | [] => []
  | j :: rest => stringifyCompact j :: stringifyCompactItems rest

def stringifyCompactEntries : List (String × Json) → List String
  | [] => []
  | (k, v) :: rest =>
    ("\"" ++ jsonEscape k ++ "\":" ++ stringifyCompact v) :: stringifyCompactEntries rest

end

/-- Embeds `describeValueType` (server.ts:1762-1774). -/
def describeValueType : Json → Option String
  | Json.null => some "null"
  | Json.arr _ => some "array"
  | Json.obj _ => some "object"
  | Json.str _ => some "string"
  | Json.num _ => some "number"
  | Json.bool _ => some "boolean"

/-- Embeds `formatFallbackValue` (server.ts:1776-1788). -/
def formatFallbackValue : Json → Option String
  | Json.null => some "null"
  | Json.str s => some s
  | Json.num n => some (toString n)
  | Json.bool b => some (toString b)
  | v => some (stringifyCompact v)

/-- JavaScript falsiness of a JSON value (`!parsed`). -/
def jsFalsy : Json → Bool
  | Json.null => true
  | Json.bool b => !b
  | Json.num n => n = 0
  | Json.str s => s = ""
  | _ => false

/-- Embeds `inferFieldsFromExample` (server.ts:1735-1760): a falsy parse (or
none) yields nothing; an array's first plain-object element stands in for the
whole example; the target object's top-level entries become required fields
with inferred types and stringified fallbacks. -/
def inferFieldsFromExample (exampleRaw : String) : List AbilityField :=
  match parseJson exampleRaw with
  | none => []
  | some parsed =>
    if jsFalsy parsed then []
    else
      let target :=
        match parsed with
        | Json.arr (first :: _) =>
          match first with
          | Json.obj _ => first
          | _ => parsed
        | _ => parsed
      match target with
      | Json.obj entries =>
        entries.map (fun kv =>
          { name := kv.1
            type := describeValueType kv.2
            description := none
            required := some true
            fallback := formatFallbackValue kv.2 })
      | _ => []

/-- Embeds `buildSnippetFromExample` (server.ts:1810-1868): a parseable
example is deep-cloned (the identity on parsed JSON values), augmented per
kind, and rendered with tab stops from 1; `pretty` is the four-space
stringification of the unaugmented parse.  Unparseable text falls back to the
raw text as a literal, placeholder-free snippet. -/
def buildSnippetFromExample (exampleStr : String) (kind : DocKind) : String × String :=
  match parseJson exampleStr with
  | some parsed =>
    let snippetRoot :=
      match kind with
      | DocKind.ability => ensureAbilityConditions parsed
      | DocKind.energy_renderer => ensureEnergyRendererBodyPart parsed
      | DocKind.condition => parsed
    ((renderValue snippetRoot 0 1).1, stringifyJson parsed 0)
  | none => (exampleStr, exampleStr)

structure SchemaBlock where
  id : String
  heading : Option String
  paragraph : Option String
  jsonSnippetPre : Option String
  codeTexts : List String
  preTexts : List String
  tableFields : List AbilityField
deriving DecidableEq

/-- The `pushCandidate` accumulation of `extractExampleSnippet`
(server.ts:1694-1709): trim, drop empties, drop duplicates, keep order. -/
def pushCandidates : List String → List String → List String
  | [], acc => acc
  | raw :: rest, acc =>
    let text := strTrim raw
    if text = "" || acc.contains text then pushCandidates rest acc
    else pushCandidates rest (acc ++ [text])

def buildCandidates (block : SchemaBlock) : List String :=
  pushCandidates
    ((match block.jsonSnippetPre with
      | some t => [t]
      | none => []) ++ block.codeTexts ++ block.preTexts)
    []

/-- `isJsonLike` / `tryParseJsonAny` (server.ts:1720-1733). -/
def isJsonLike (text : String) : Bool :=
  (parseJson text).isSome

/-- Embeds the candidate selection of `extractExampleSnippet`
(server.ts:1711-1717): the first candidate that round-trips through a JSON
parse. -/
def extractExampleSnippet (block : SchemaBlock) : Option String :=
  (buildCandidates block).find? isJsonLike

/-- One record of `parseAbilityHtml`'s block loop (server.ts:1586-1615):
blocks without a namespaced id or without a JSON-parseable code sample
produce nothing. -/
def recordOfBlock (sourceLabel : String) (docKind : DocKind) (b : SchemaBlock) :
    Option AbilityRecord :=
  if b.id = "" || !(b.id.data.contains ':') then none
  else
    match extractExampleSnippet b with
    | none => none
    | some exampleRaw =>
      let headingText := strTrim (b.heading.getD "")
      let name := if headingText = "" then b.id else headingText
      let description := strTrim (b.paragraph.getD "")
      let inferredFields :=
        if b.tableFields.length = 0 then inferFieldsFromExample exampleRaw else b.tableFields
      let sp := buildSnippetFromExample exampleRaw docKind
      some { id := b.id
             name := name
             snippet := sp.1
             exampleText := sp.2
             description := some description
             source := some sourceLabel
             fields := inferredFields }

/-- `Map.set` iteration of `dedupeAbilities` (server.ts:1960-1966): first
insertion keeps its position, the last record for an id wins. -/
def setRecordById : List AbilityRecord → AbilityRecord → List AbilityRecord
  | [], r => [r]
  | r0 :: rest, r => if r0.id = r.id then r :: rest else r0 :: setRecordById rest r

def dedupeAbilities (items : List AbilityRecord) : List AbilityRecord :=
  items.foldl setRecordById []

def parseAbilityHtmlModel (blocks : List SchemaBlock) (sourceLabel : String)
    (docKind : DocKind) : List AbilityRecord :=
  dedupeAbilities (blocks.filterMap (recordOfBlock sourceLabel docKind))

def demoBadBlock : SchemaBlock :=
  { id := "test:thing", heading := some "Thing", paragraph := none,
    jsonSnippetPre := none, codeTexts := ["not json"], preTexts := [],
    tableFields := [] }

/-- Counterexample to C8 as stated: a block with the namespaced id
`test:thing` whose only code sample is the unparseable text `not json` is
dropped from the loaded entries entirely — no record with a literal raw-text
snippet is produced — because `extractExampleSnippet` only accepts candidates
that already parse as JSON. -/
theorem c8_malformed_example_counterexample :
    parseJson "not json" = none
    ∧ parseAbilityHtmlModel [demoBadBlock] "abilities.html" DocKind.ability = [] :=
  ⟨rfl, rfl⟩

/-- C8 (amended): a schema block none of whose code samples parse as JSON
yields no entity at all (the block is dropped); the raw-text literal-snippet
fallback lives in `buildSnippetFromExample`, which indeed returns unparseable
text verbatim as a placeholder-free snippet, but the loader never reaches it
with such text because candidates are pre-filtered by a JSON parse. -/
theorem c8_malformed_example_amended :
    (∀ (b : SchemaBlock) (lbl : String) (kind : DocKind),
        (∀ c ∈ buildCandidates b, parseJson c = none) →
        parseAbilityHtmlModel [b] lbl kind = [])
    ∧ (∀ (s : String) (kind : DocKind), parseJson s = none →
        buildSnippetFromExample s kind = (s, s)) := by
  constructor
  · intro b lbl kind hall
    have hext : extractExampleSnippet b = none := by
      apply List.find?_eq_none.mpr
      intro c hc
      simp [isJsonLike, hall c hc]
    have hrec : recordOfBlock lbl kind b = none := by
      unfold recordOfBlock
      by_cases hid : (b.id = "" || !(b.id.data.contains ':')) = true
      · rw [if_pos hid]
      · rw [if_neg hid, hext]
    simp [parseAbilityHtmlModel, hrec, dedupeAbilities]
  · intro s kind hs
    unfold buildSnippetFromExample
    rw [hs]

/-- Witness for the amended C8 at the concrete block whose single code sample
is `not json`. -/
theorem c8_malformed_example_amended_witness :
    parseAbilityHtmlModel [demoBadBlock] "conditions.html" DocKind.condition = []
    ∧ buildSnippetFromExample "not json" DocKind.ability = ("not json", "not json") := by
  constructor
  · refine c8_malformed_example_amended.1 demoBadBlock "conditions.html" DocKind.condition ?_
    intro c hc
    have hcand : buildCandidates demoBadBlock = ["not json"] := rfl
    rw [hcand] at hc
    simp only [List.mem_singleton] at hc
    subst hc
    rfl
  · exact c8_malformed_example_amended.2 "not json" DocKind.ability rfl

/-
Claim C1 infrastructure: filling every tab stop of a rendered snippet with
its default text recovers the canonical pretty-print of the augmented
example, for examples whose strings survive both encodings untouched.
-/

def escChars (l : List Char) : List Char :=
  l.foldr (fun c acc => escapeChar c ++ acc) []

theorem escapeSnippet_data (s : String) : (escapeSnippet s).data = escChars s.data := rfl

theorem substM_nil (st : SubstState) : substM st [] = [] := by
  cases st <;> rfl

theorem substM_copy_cons (c : Char) (r : List Char) (h : c ≠ '$') :
    substM SubstState.copy (c :: r) = c :: substM SubstState.copy r := by
  cases r with
  | nil => rfl
  | cons c2 r2 => simp [substM, h]

theorem substM_copy_append (t r : List Char) (h : ∀ c ∈ t, c ≠ '$') :
    substM SubstState.copy (t ++ r) = t ++ substM SubstState.copy r := by
  induction t with
  | nil => simp
  | cons c t ih =>
    rw [List.cons_append, substM_copy_cons c _ (h c (List.mem_cons_self c t)),
      ih (fun c' hc' => h c' (List.mem_cons_of_mem c hc'))]
    rfl

theorem substM_copy_dollar (r : List Char) :
    substM SubstState.copy ('$' :: '{' :: r) = substM SubstState.header r := by
  simp [substM]

theorem substM_header_skip (ds r : List Char) (h : ∀ c ∈ ds, c ≠ ':') :
    substM SubstState.header (ds ++ ':' :: r) = substM SubstState.body r := by
  induction ds with
  | nil => simp [substM]
  | cons c ds ih =>
    rw [List.cons_append]
    rw [show substM SubstState.header (c :: (ds ++ ':' :: r))
        = substM SubstState.header (ds ++ ':' :: r) from by
      simp [substM, h c (List.mem_cons_self c ds)]]
    exact ih (fun c' hc' => h c' (List.mem_cons_of_mem c hc'))

theorem substM_body_escaped (t r : List Char) :
    substM SubstState.body (escChars t ++ '}' :: r) = t ++ substM SubstState.copy r := by
  induction t with
  | nil =>
    cases r <;> simp [escChars, substM]
  | cons c t ih =>
    by_cases hs : (c = '\\' || c = '{' || c = '}' || c = '$') = true
    · have he : escChars (c :: t) = '\\' :: c :: escChars t := by
        simp only [escChars, List.foldr_cons]
        rw [show escapeChar c = ['\\', c] from by simp [escapeChar, hs]]
        rfl
      rw [he]
      simp only [List.cons_append]
      rw [show substM SubstState.body ('\\' :: c :: (escChars t ++ '}' :: r))
          = c :: substM SubstState.body (escChars t ++ '}' :: r) from by simp [substM]]
      rw [ih]
    · have hcond : (c = '\\' || c = '{' || c = '}' || c = '$') = false :=
        Bool.eq_false_iff.mpr hs
      have hc1 : c ≠ '\\' := by
        intro hcc
        rw [hcc] at hcond
        simp at hcond
      have hc2 : c ≠ '}' := by
        intro hcc
        rw [hcc] at hcond
        simp at hcond
      have he : escChars (c :: t) = c :: escChars t := by
        simp only [escChars, List.foldr_cons]
        rw [show escapeChar c = [c] from by simp [escapeChar, hcond]]
        rfl
      rw [he]
      simp only [List.cons_append]
      have hbody : substM SubstState.body (c :: (escChars t ++ '}' :: r))
          = c :: substM SubstState.body (escChars t ++ '}' :: r) := by
        cases hE : escChars t with
        | nil => simp [substM, hc1, hc2]
        | cons e es => simp [substM, hc1, hc2]
      rw [hbody, ih]

theorem digitChar_ne_colon : ∀ m : Nat, m < 10 → Nat.digitChar m ≠ ':' := by decide

theorem toDigitsCore_ne_colon : ∀ (f n : Nat) (acc : List Char),
    (∀ c ∈ acc, c ≠ ':') → ∀ c ∈ Nat.toDigitsCore 10 f n acc, c ≠ ':' := by
  intro f
  induction f with
  | zero =>
    intro n acc hacc
    simpa [Nat.toDigitsCore] using hacc
  | succ f ih =>
    intro n acc hacc c hc
    have hd : Nat.digitChar (n % 10) ≠ ':' :=
      digitChar_ne_colon _ (Nat.mod_lt _ (by decide))
    simp only [Nat.toDigitsCore] at hc
    by_cases hlt : n / 10 = 0
    · rw [if_pos hlt] at hc
      rcases List.mem_cons.mp hc with h1 | h1
      · subst h1
        exact hd
      · exact hacc c h1
    · rw [if_neg hlt] at hc
      refine ih (n / 10) _ ?_ c hc
      intro c' hc'
      rcases List.mem_cons.mp hc' with h1 | h1
      · subst h1
        exact hd
      · exact hacc c' h1

theorem natRepr_ne_colon (n : Nat) : ∀ c ∈ (Nat.repr n).data, c ≠ ':' := by
  intro c hc
  have hrepr : (Nat.repr n).data = Nat.toDigitsCore 10 (n + 1) n [] := rfl
  rw [hrepr] at hc
  exact toDigitsCore_ne_colon (n + 1) n [] (by simp) c hc

theorem toDigitsCore_length : ∀ (f n : Nat) (acc : List Char),
    acc.length ≤ (Nat.toDigitsCore 10 f n acc).length := by
  intro f
  induction f with
  | zero =>
    intro n acc
    simp [Nat.toDigitsCore]
  | succ f ih =>
    intro n acc
    simp only [Nat.toDigitsCore]
    by_cases hlt : n / 10 = 0
    · rw [if_pos hlt]
      simp
    · rw [if_neg hlt]
      refine le_trans ?_ (ih (n / 10) (Nat.digitChar (n % 10) :: acc))
      simp

theorem natRepr_ne_empty (n : Nat) : Nat.repr n ≠ "" := by
  intro h
  have hd : (Nat.repr n).data = Nat.toDigitsCore 10 (n + 1) n [] := rfl
  rw [h] at hd
  have hlen : 1 ≤ (Nat.toDigitsCore 10 (n + 1) n []).length := by
    simp only [Nat.toDigitsCore]
    by_cases hlt : n / 10 = 0
    · rw [if_pos hlt]
      simp
    · rw [if_neg hlt]
      refine le_trans ?_ (toDigitsCore_length n (n / 10) [Nat.digitChar (n % 10)])
      simp
  rw [← hd] at hlen
  simp at hlen

theorem intToString_ne_empty (n : Int) : (toString n : String) ≠ "" := by
  cases n with
  | ofNat m => exact natRepr_ne_empty m
  | negSucc m =>
    intro h
    have hdata : (toString (Int.negSucc m) : String).data = '-' :: (Nat.repr (m + 1)).data := rfl
    rw [h] at hdata
    exact List.noConfusion hdata

theorem escChars_eq_nil (l : List Char) (h : escChars l = []) : l = [] := by
  cases l with
  | nil => rfl
  | cons c cs =>
    exfalso
    simp only [escChars, List.foldr_cons] at h
    have h1 : escapeChar c = [] := (List.append_eq_nil.mp h).1
    by_cases hb : (c = '\\' || c = '{' || c = '}' || c = '$') = true
    · rw [show escapeChar c = ['\\', c] from by simp [escapeChar, hb]] at h1
      exact List.noConfusion h1
    · rw [show escapeChar c = [c] from by
        simp [escapeChar, Bool.eq_false_iff.mpr hb]] at h1
      exact List.noConfusion h1

theorem content_eq_escape (t : String) (h : t ≠ "") :
    (if escapeSnippet t = "" then "value" else escapeSnippet t) = escapeSnippet t := by
  rw [if_neg]
  intro he
  apply h
  have hdata : escChars t.data = [] := congrArg String.data he
  have ht : t.data = [] := escChars_eq_nil _ hdata
  calc t = ⟨t.data⟩ := rfl
  _ = "" := by rw [ht]

theorem subst_placeholder (tab : Nat) (t : String) (r : List Char) :
    substM SubstState.copy
        (("$\x7b" ++ toString tab ++ ":" ++ escapeSnippet t ++ "\x7d").data ++ r)
      = t.data ++ substM SubstState.copy r := by
  have hdata : ("$\x7b" ++ toString tab ++ ":" ++ escapeSnippet t ++ "\x7d").data ++ r
      = '$' :: '{' :: ((Nat.repr tab).data ++ ':' :: (escChars t.data ++ '}' :: r)) := by
    simp only [String.data_append, escapeSnippet_data]
    rw [show (toString tab : String) = Nat.repr tab from rfl]
    simp
  rw [hdata, substM_copy_dollar, substM_header_skip _ _ (natRepr_ne_colon tab),
    substM_body_escaped]

/-- A character that survives both `JSON.stringify` string escaping and the
editor's reinsertion of default text unchanged. -/
def cleanChar (c : Char) : Bool :=
  !(c = '"') && !(c = '\\') && decide (0x20 ≤ c.toNat)

/-- Key characters additionally must not open a snippet placeholder, since
keys are interpolated into the snippet verbatim. -/
def cleanKeyChar (c : Char) : Bool :=
  cleanChar c && !(c = '$')

mutual

/-- C1's side condition: every string scalar is nonempty and free of
characters needing JSON escapes, and every key additionally contains no
dollar sign. -/
def CleanJson : Json → Bool
  | Json.null => true
  | Json.bool _ => true
  | Json.num _ => true
  | Json.str s => !s.data.isEmpty && s.data.all cleanChar
  | Json.arr items => CleanItems items
  | Json.obj entries => CleanEntries entries

def CleanItems : List Json → Bool
  | [] => true
  | j :: rest => CleanJson j && CleanItems rest

def CleanEntries : List (String × Json) → Bool
  | [] => true
  | (k, v) :: rest => k.data.all cleanKeyChar && CleanJson v && CleanEntries rest

end

theorem jsonEscapeChar_clean (c : Char) (h : cleanChar c = true) : jsonEscapeChar c = [c] := by
  simp only [cleanChar, Bool.and_eq_true, Bool.not_eq_true', decide_eq_true_eq] at h
  obtain ⟨⟨h1, h2⟩, h3⟩ := h
  have hq : c ≠ '"' := by
    intro hcc
    rw [hcc] at h1
    simp at h1
  have hbs : c ≠ '\\' := by
    intro hcc
    rw [hcc] at h2
    simp at h2
  have hn : ∀ x : Char, x.toNat < 0x20 → c ≠ x := by
    intro x hx hcx
    rw [hcx] at h3
    omega
  unfold jsonEscapeChar
  rw [if_neg hq, if_neg hbs, if_neg (hn '\n' (by decide)), if_neg (hn '\t' (by decide)),
    if_neg (hn '\r' (by decide)), if_neg (hn '\x08' (by decide)),
    if_neg (hn '\x0c' (by decide)), if_neg (by omega : ¬c.toNat < 0x20)]

theorem jsonEscape_chars_clean (l : List Char) (h : l.all cleanChar = true) :
    l.foldr (fun c acc => jsonEscapeChar c ++ acc) [] = l := by
  induction l with
  | nil => rfl
  | cons c t ih =>
    rw [List.all_cons, Bool.and_eq_true] at h
    rw [List.foldr_cons, jsonEscapeChar_clean c h.1, ih h.2]
    rfl

theorem jsonEscape_clean (s : String) (h : s.data.all cleanChar = true) : jsonEscape s = s := by
  have hd : (jsonEscape s).data = s.data := jsonEscape_chars_clean s.data h
  calc jsonEscape s = ⟨(jsonEscape s).data⟩ := rfl
  _ = ⟨s.data⟩ := by rw [hd]
  _ = s := rfl

theorem indentUnit_no_dollar : ∀ c ∈ (indentUnit : String).data, c ≠ '$' := by decide

theorem repeatStr_no_dollar (d : Nat) : ∀ c ∈ (repeatStr d indentUnit).data, c ≠ '$' := by
  induction d with
  | zero => intro c hc; exact absurd hc (List.not_mem_nil c)
  | succ d ih =>
    intro c hc
    rw [show repeatStr (d + 1) indentUnit = indentUnit ++ repeatStr d indentUnit from rfl,
      String.data_append] at hc
    rcases List.mem_append.mp hc with h | h
    · exact indentUnit_no_dollar c h
    · exact ih c h

theorem cleanKey_no_dollar (k : String) (h : k.data.all cleanKeyChar = true) :
    ∀ c ∈ k.data, c ≠ '$' := by
  intro c hc hceq
  have := List.all_eq_true.mp h c hc
  rw [hceq] at this
  simp [cleanKeyChar, cleanChar] at this

theorem cleanKey_clean (k : String) (h : k.data.all cleanKeyChar = true) :
    k.data.all cleanChar = true := by
  rw [List.all_eq_true] at h ⊢
  intro c hc
  have hb := h c hc
  simp only [cleanKeyChar, Bool.and_eq_true] at hb
  exact hb.1

theorem joinSep_singleton (sep a : String) : joinSep sep [a] = a := rfl

theorem joinSep_cons_of_ne_nil (sep a : String) (l : List String) (h : l ≠ []) :
    joinSep sep (a :: l) = a ++ sep ++ joinSep sep l := by
  cases l with
  | nil => exact absurd rfl h
  | cons b t => rfl

theorem CleanItems_mem (items : List Json) (h : CleanItems items = true) :
    ∀ j ∈ items, CleanJson j = true := by
  induction items with
  | nil =>
    intro j hj
    exact absurd hj (List.not_mem_nil j)
  | cons i rest ih =>
    intro j hj
    simp only [CleanItems, Bool.and_eq_true] at h
    rcases List.mem_cons.mp hj with h1 | h1
    · subst h1
      exact h.1
    · exact ih h.2 j h1

theorem quoteColonSpace_no_dollar : ∀ c ∈ ("\": " : String).data, c ≠ '$' := by decide

theorem items_subst_of (items : List Json) :
    (∀ j ∈ items, ∀ (d tab : Nat) (r : List Char),
        substM SubstState.copy ((renderValue j d tab).1.data ++ r)
          = (stringifyJson j d).data ++ substM SubstState.copy r) →
    ∀ (d tab : Nat) (r : List Char), items ≠ [] →
      substM SubstState.copy ((joinSep ",\n" (renderItems items d tab).1).data ++ r)
        = (joinSep ",\n" (stringifyItems items d)).data ++ substM SubstState.copy r := by
  induction items with
  | nil =>
    intro _ d tab r h
    exact absurd rfl h
  | cons j rest ih =>
    intro hIH d tab r _
    have hmemj : j ∈ j :: rest := List.mem_cons_self j rest
    cases rest with
    | nil =>
      rw [show (renderItems [j] d tab).1
          = [repeatStr d indentUnit ++ (renderValue j d tab).1] from rfl]
      rw [show stringifyItems [j] d = [repeatStr d indentUnit ++ stringifyJson j d] from rfl]
      rw [joinSep_singleton, joinSep_singleton]
      simp only [String.data_append, List.append_assoc]
      rw [substM_copy_append _ _ (repeatStr_no_dollar d), hIH j hmemj d tab r]
    | cons j2 rest2 =>
      rw [show (renderItems (j :: j2 :: rest2) d tab).1
          = (repeatStr d indentUnit ++ (renderValue j d tab).1)
            :: (renderItems (j2 :: rest2) d (renderValue j d tab).2).1 from rfl]
      rw [show stringifyItems (j :: j2 :: rest2) d
          = (repeatStr d indentUnit ++ stringifyJson j d)
            :: stringifyItems (j2 :: rest2) d from rfl]
      rw [joinSep_cons_of_ne_nil _ _ _ (by
        rw [show (renderItems (j2 :: rest2) d (renderValue j d tab).2).1
            = (repeatStr d indentUnit ++ (renderValue j2 d (renderValue j d tab).2).1)
              :: (renderItems rest2 d (renderValue j2 d (renderValue j d tab).2).2).1 from rfl]
        exact List.cons_ne_nil _ _)]
      rw [joinSep_cons_of_ne_nil _ _ _ (by
        rw [show stringifyItems (j2 :: rest2) d
            = (repeatStr d indentUnit ++ stringifyJson j2 d) :: stringifyItems rest2 d from rfl]
        exact List.cons_ne_nil _ _)]
      simp only [String.data_append, List.append_assoc]
      rw [substM_copy_append _ _ (repeatStr_no_dollar d), hIH j hmemj d tab]
      rw [substM_copy_append (",\n" : String).data _ (by decide)]
      rw [ih (fun j' hj' => hIH j' (List.mem_cons_of_mem j hj')) d
        (renderValue j d tab).2 r (List.cons_ne_nil j2 rest2)]

theorem entries_subst_of (entries : List (String × Json)) :
    (∀ e ∈ entries, ∀ (d tab : Nat) (r : List Char),
        substM SubstState.copy ((renderValue (Prod.snd e) d tab).1.data ++ r)
          = (stringifyJson (Prod.snd e) d).data ++ substM SubstState.copy r) →
    CleanEntries entries = true →
    ∀ (d tab : Nat) (r : List Char), entries ≠ [] →
      substM SubstState.copy ((joinSep ",\n" (renderEntries entries d tab).1).data ++ r)
        = (joinSep ",\n" (stringifyEntries entries d)).data ++ substM SubstState.copy r := by
  induction entries with
  | nil =>
    intro _ _ d tab r h
    exact absurd rfl h
  | cons e rest ih =>
    intro hIH hcl d tab r _
    obtain ⟨k, v⟩ := e
    simp only [CleanEntries, Bool.and_eq_true] at hcl
    obtain ⟨⟨hk, hv⟩, hrest⟩ := hcl
    have hmemv : (k, v) ∈ (k, v) :: rest := List.mem_cons_self _ rest
    have hje : jsonEscape k = k := jsonEscape_clean k (cleanKey_clean k hk)
    have hpre : ∀ c ∈ (repeatStr d indentUnit).data ++ ("\"" : String).data
        ++ k.data ++ ("\": " : String).data, c ≠ '$' := by
      intro c hc
      rcases List.mem_append.mp hc with hc1 | hc1
      · rcases List.mem_append.mp hc1 with hc2 | hc2
        · rcases List.mem_append.mp hc2 with hc3 | hc3
          · exact repeatStr_no_dollar d c hc3
          · simp only [List.mem_singleton, show ("\"" : String).data = ['"'] from rfl] at hc3
            subst hc3
            decide
        · exact cleanKey_no_dollar k hk c hc2
      · exact quoteColonSpace_no_dollar c hc1
    cases rest with
    | nil =>
      rw [show (renderEntries [(k, v)] d tab).1
          = [repeatStr d indentUnit ++ "\"" ++ k ++ "\": " ++ (renderValue v d tab).1] from rfl]
      rw [show stringifyEntries [(k, v)] d
          = [repeatStr d indentUnit ++ "\"" ++ jsonEscape k ++ "\": " ++ stringifyJson v d]
          from rfl]
      rw [hje, joinSep_singleton, joinSep_singleton]
      simp only [String.data_append, List.append_assoc]
      rw [show (repeatStr d indentUnit).data ++ (("\"" : String).data ++ (k.data
          ++ (("\": " : String).data ++ ((renderValue v d tab).1.data ++ r))))
          = ((repeatStr d indentUnit).data ++ ("\"" : String).data ++ k.data
              ++ ("\": " : String).data) ++ ((renderValue v d tab).1.data ++ r) from by
        simp [List.append_assoc]]
      rw [substM_copy_append _ _ hpre, hIH (k, v) hmemv d tab r]
      simp [List.append_assoc]
    | cons e2 rest2 =>
      obtain ⟨k2, v2⟩ := e2
      rw [show (renderEntries ((k, v) :: (k2, v2) :: rest2) d tab).1
          = (repeatStr d indentUnit ++ "\"" ++ k ++ "\": " ++ (renderValue v d tab).1)
            :: (renderEntries ((k2, v2) :: rest2) d (renderValue v d tab).2).1 from rfl]
      rw [show stringifyEntries ((k, v) :: (k2, v2) :: rest2) d
          = (repeatStr d indentUnit ++ "\"" ++ jsonEscape k ++ "\": " ++ stringifyJson v d)
            :: stringifyEntries ((k2, v2) :: rest2) d from rfl]
      rw [hje]
      rw [joinSep_cons_of_ne_nil _ _ _ (by
        rw [show (renderEntries ((k2, v2) :: rest2) d (renderValue v d tab).2).1
            = (repeatStr d indentUnit ++ "\"" ++ k2 ++ "\": "
                ++ (renderValue v2 d (renderValue v d tab).2).1)
              :: (renderEntries rest2 d (renderValue v2 d (renderValue v d tab).2).2).1 from rfl]
        exact List.cons_ne_nil _ _)]
      rw [joinSep_cons_of_ne_nil _ _ _ (by
        rw [show stringifyEntries ((k2, v2) :: rest2) d
            = (repeatStr d indentUnit ++ "\"" ++ jsonEscape k2 ++ "\": " ++ stringifyJson v2 d)
              :: stringifyEntries rest2 d from rfl]
        exact List.cons_ne_nil _ _)]
      simp only [String.data_append, List.append_assoc]
      rw [show (repeatStr d indentUnit).data ++ (("\"" : String).data ++ (k.data
          ++ (("\": " : String).data ++ ((renderValue v d tab).1.data ++ ((",\n" : String).data
            ++ ((joinSep ",\n" (renderEntries ((k2, v2) :: rest2) d (renderValue v d tab).2).1).data
              ++ r))))))
          = ((repeatStr d indentUnit).data ++ ("\"" : String).data ++ k.data
              ++ ("\": " : String).data) ++ ((renderValue v d tab).1.data ++ ((",\n" : String).data
            ++ ((joinSep ",\n" (renderEntries ((k2, v2) :: rest2) d (renderValue v d tab).2).1).data
              ++ r))) from by simp [List.append_assoc]]
      rw [substM_copy_append _ _ hpre, hIH (k, v) hmemv d tab]
      rw [substM_copy_append (",\n" : String).data _ (by decide)]
      rw [ih (fun e' he' => hIH e' (List.mem_cons_of_mem _ he')) hrest d
        (renderValue v d tab).2 r (List.cons_ne_nil _ _)]
      simp [List.append_assoc]

theorem CleanEntries_mem (entries : List (String × Json)) (h : CleanEntries entries = true) :
    ∀ e ∈ entries, CleanJson (Prod.snd e) = true := by
  induction entries with
  | nil =>
    intro e he
    exact absurd he (List.not_mem_nil e)
  | cons e0 rest ih =>
    intro e he
    obtain ⟨k, v⟩ := e0
    simp only [CleanEntries, Bool.and_eq_true] at h
    rcases List.mem_cons.mp he with h1 | h1
    · subst h1
      exact h.1.2
    · exact ih h.2 e h1

theorem cleanStr_of (s : String) (h : CleanJson (Json.str s) = true) :
    s ≠ "" ∧ s.data.all cleanChar = true := by
  simp only [CleanJson, Bool.and_eq_true, Bool.not_eq_true'] at h
  refine ⟨?_, h.2⟩
  intro hs
  subst hs
  exact absurd h.1 (by decide)

theorem render_subst_fuel :
    ∀ (fuel : Nat) (v : Json), sizeOf v ≤ fuel → CleanJson v = true →
      ∀ (d tab : Nat) (r : List Char),
        substM SubstState.copy ((renderValue v d tab).1.data ++ r)
          = (stringifyJson v d).data ++ substM SubstState.copy r := by
  intro fuel
  induction fuel with
  | zero =>
    intro v hsz
    cases v <;> simp at hsz
  | succ f ih =>
    intro v hsz hcl d tab r
    cases v with
    | null =>
      rw [show (renderValue Json.null d tab).1
          = "$\x7b" ++ toString tab ++ ":" ++ escapeSnippet "null" ++ "\x7d" from rfl,
        subst_placeholder]
      rfl
    | bool b =>
      cases b with
      | false =>
        rw [show (renderValue (Json.bool false) d tab).1
            = "$\x7b" ++ toString tab ++ ":" ++ escapeSnippet "false" ++ "\x7d" from rfl,
          subst_placeholder]
        rfl
      | true =>
        rw [show (renderValue (Json.bool true) d tab).1
            = "$\x7b" ++ toString tab ++ ":" ++ escapeSnippet "true" ++ "\x7d" from rfl,
          subst_placeholder]
        rfl
    | num n =>
      have hne := intToString_ne_empty n
      rw [show (renderValue (Json.num n) d tab).1
          = "$\x7b" ++ toString tab ++ ":"
            ++ (if escapeSnippet (toString n) = "" then "value" else escapeSnippet (toString n))
            ++ "\x7d" from rfl]
      rw [content_eq_escape (toString n) hne, subst_placeholder]
      rfl
    | str s =>
      obtain ⟨hse, hall⟩ := cleanStr_of s hcl
      rw [show (renderValue (Json.str s) d tab).1
          = "\"" ++ ("$\x7b" ++ toString tab ++ ":"
              ++ (if escapeSnippet s = "" then "value" else escapeSnippet s) ++ "\x7d") ++ "\""
          from rfl]
      rw [content_eq_escape s hse]
      rw [show stringifyJson (Json.str s) d = "\"" ++ jsonEscape s ++ "\"" from rfl,
        jsonEscape_clean s hall]
      have hdata : ("\"" ++ ("$\x7b" ++ toString tab ++ ":" ++ escapeSnippet s ++ "\x7d")
            ++ "\"").data ++ r
          = '"' :: (("$\x7b" ++ toString tab ++ ":" ++ escapeSnippet s ++ "\x7d").data
            ++ ('"' :: r)) := by
        simp [String.data_append, List.append_assoc]
      rw [hdata, substM_copy_cons _ _ (by decide), subst_placeholder,
        substM_copy_cons _ _ (by decide)]
      simp [String.data_append, List.append_assoc]
    | arr items =>
      cases items with
      | nil =>
        rw [show (renderValue (Json.arr []) d tab).1 = "[]" from rfl,
          show stringifyJson (Json.arr []) d = "[]" from rfl,
          substM_copy_append _ _ (by decide : ∀ c ∈ ("[]" : String).data, c ≠ '$')]
      | cons i rest =>
        have hIH : ∀ j ∈ i :: rest, ∀ (d' tab' : Nat) (r' : List Char),
            substM SubstState.copy ((renderValue j d' tab').1.data ++ r')
              = (stringifyJson j d').data ++ substM SubstState.copy r' := by
          intro j hj d' tab' r'
          have hsj := List.sizeOf_lt_of_mem hj
          have hsz2 : sizeOf (Json.arr (i :: rest)) = 1 + sizeOf (i :: rest) := by simp
          exact ih j (by omega) (CleanItems_mem _ (by simpa [CleanJson] using hcl) j hj) d' tab' r'
        rw [show (renderValue (Json.arr (i :: rest)) d tab).1
            = "[\n" ++ joinSep ",\n" (renderItems (i :: rest) (d + 1) tab).1 ++ "\n"
              ++ repeatStr d indentUnit ++ "]" from rfl]
        rw [show stringifyJson (Json.arr (i :: rest)) d
            = "[\n" ++ joinSep ",\n" (stringifyItems (i :: rest) (d + 1)) ++ "\n"
              ++ repeatStr d indentUnit ++ "]" from rfl]
        have hdata : ("[\n" ++ joinSep ",\n" (renderItems (i :: rest) (d + 1) tab).1 ++ "\n"
              ++ repeatStr d indentUnit ++ "]").data ++ r
            = ("[\n" : String).data
              ++ ((joinSep ",\n" (renderItems (i :: rest) (d + 1) tab).1).data
                ++ (("\n" : String).data ++ ((repeatStr d indentUnit).data
                  ++ (("]" : String).data ++ r)))) := by
          simp [String.data_append, List.append_assoc]
        rw [hdata]
        rw [substM_copy_append ("[\n" : String).data _ (by decide)]
        rw [items_subst_of (i :: rest) hIH (d + 1) tab _ (List.cons_ne_nil i rest)]
        rw [substM_copy_append ("\n" : String).data _ (by decide)]
        rw [substM_copy_append _ _ (repeatStr_no_dollar d)]
        rw [substM_copy_append ("]" : String).data _ (by decide)]
        simp [String.data_append, List.append_assoc]
    | obj entries =>
      cases entries with
      | nil =>
        rw [show (renderValue (Json.obj []) d tab).1 = "\x7b\x7d" from rfl,
          show stringifyJson (Json.obj []) d = "\x7b\x7d" from rfl,
          substM_copy_append _ _ (by decide : ∀ c ∈ ("\x7b\x7d" : String).data, c ≠ '$')]
      | cons e rest =>
        have hclE : CleanEntries (e :: rest) = true := by simpa [CleanJson] using hcl
        have hIH : ∀ e' ∈ e :: rest, ∀ (d' tab' : Nat) (r' : List Char),
            substM SubstState.copy ((renderValue (Prod.snd e') d' tab').1.data ++ r')
              = (stringifyJson (Prod.snd e') d').data ++ substM SubstState.copy r' := by
          intro e' he' d' tab' r'
          obtain ⟨k', v'⟩ := e'
          have hse := List.sizeOf_lt_of_mem he'
          have hsz2 : sizeOf (Json.obj (e :: rest)) = 1 + sizeOf (e :: rest) := by simp
          have hsz3 : sizeOf (k', v') = 1 + sizeOf k' + sizeOf v' := by simp
          refine ih v' (by omega) ?_ d' tab' r'
          exact CleanEntries_mem _ hclE (k', v') he'
        rw [show (renderValue (Json.obj (e :: rest)) d tab).1
            = "\x7b\n" ++ joinSep ",\n" (renderEntries (e :: rest) (d + 1) tab).1 ++ "\n"
              ++ repeatStr d indentUnit ++ "\x7d" from rfl]
        rw [show stringifyJson (Json.obj (e :: rest)) d
            = "\x7b\n" ++ joinSep ",\n" (stringifyEntries (e :: rest) (d + 1)) ++ "\n"
              ++ repeatStr d indentUnit ++ "\x7d" from rfl]
        have hdata : ("\x7b\n" ++ joinSep ",\n" (renderEntries (e :: rest) (d + 1) tab).1 ++ "\n"
              ++ repeatStr d indentUnit ++ "\x7d").data ++ r
            = ("\x7b\n" : String).data
              ++ ((joinSep ",\n" (renderEntries (e :: rest) (d + 1) tab).1).data
                ++ (("\n" : String).data ++ ((repeatStr d indentUnit).data
                  ++ (("\x7d" : String).data ++ r)))) := by
          simp [String.data_append, List.append_assoc]
        rw [hdata]
        rw [substM_copy_append ("\x7b\n" : String).data _ (by decide)]
        rw [entries_subst_of (e :: rest) hIH hclE (d + 1) tab _ (List.cons_ne_nil e rest)]
        rw [substM_copy_append ("\n" : String).data _ (by decide)]
        rw [substM_copy_append _ _ (repeatStr_no_dollar d)]
        rw [substM_copy_append ("\x7d" : String).data _ (by decide)]
        simp [String.data_append, List.append_assoc]

theorem CleanEntries_jsSet (l : List (String × Json)) (k : String) (v : Json)
    (hl : CleanEntries l = true) (hk : k.data.all cleanKeyChar = true)
    (hv : CleanJson v = true) : CleanEntries (jsSet l k v) = true := by
  induction l with
  | nil => simp [jsSet, CleanEntries, hk, hv]
  | cons e rest ih =>
    obtain ⟨k0, v0⟩ := e
    simp only [CleanEntries, Bool.and_eq_true] at hl
    obtain ⟨⟨hk0, hv0⟩, hrest⟩ := hl
    by_cases h : k0 = k
    · rw [show jsSet ((k0, v0) :: rest) k v = (k0, v) :: rest from by simp [jsSet, h]]
      simp only [CleanEntries, Bool.and_eq_true]
      exact ⟨⟨by rw [h]; exact hk, hv⟩, hrest⟩
    · rw [show jsSet ((k0, v0) :: rest) k v = (k0, v0) :: jsSet rest k v from by
        simp [jsSet, h]]
      simp only [CleanEntries, Bool.and_eq_true]
      exact ⟨⟨hk0, hv0⟩, ih hrest⟩

theorem CleanJson_jsGet (l : List (String × Json)) (k : String) (v : Json)
    (hl : CleanEntries l = true) (hg : jsGet l k = some v) : CleanJson v = true := by
  induction l with
  | nil => exact Option.noConfusion hg
  | cons e rest ih =>
    obtain ⟨k0, v0⟩ := e
    simp only [CleanEntries, Bool.and_eq_true] at hl
    obtain ⟨⟨hk0, hv0⟩, hrest⟩ := hl
    by_cases h : k0 = k
    · rw [show jsGet ((k0, v0) :: rest) k = some v0 from by simp [jsGet, h]] at hg
      injection hg with hg'
      rw [← hg']
      exact hv0
    · rw [show jsGet ((k0, v0) :: rest) k = jsGet rest k from by simp [jsGet, h]] at hg
      exact ih hrest hg

theorem enablingKey_clean : ("enabling" : String).data.all cleanKeyChar = true := by decide

theorem unlockingKey_clean : ("unlocking" : String).data.all cleanKeyChar = true := by decide

theorem conditionsKey_clean : ("conditions" : String).data.all cleanKeyChar = true := by decide

theorem clean_fixEnabling (cf : List (String × Json)) (h : CleanEntries cf = true) :
    CleanEntries (fixEnabling cf) = true := by
  unfold fixEnabling
  rcases hg : jsGet cf "enabling" with _ | val
  · exact CleanEntries_jsSet cf _ _ h enablingKey_clean rfl
  · cases val
    case arr a => exact h
    all_goals exact CleanEntries_jsSet cf _ _ h enablingKey_clean rfl

theorem clean_fixUnlocking (cf : List (String × Json)) (h : CleanEntries cf = true) :
    CleanEntries (fixUnlocking cf) = true := by
  unfold fixUnlocking
  rcases hg : jsGet cf "unlocking" with _ | val
  · exact CleanEntries_jsSet cf _ _ h unlockingKey_clean rfl
  · cases val
    case arr a => exact h
    all_goals exact CleanEntries_jsSet cf _ _ h unlockingKey_clean rfl

theorem clean_ensureAbilityConditions (v : Json) (h : CleanJson v = true) :
    CleanJson (ensureAbilityConditions v) = true := by
  cases v with
  | obj fields =>
    have hE : CleanEntries fields = true := by simpa [CleanJson] using h
    rcases hg : jsGet fields "conditions" with _ | val
    · simp only [ensureAbilityConditions, hg]
      show CleanEntries (jsSet fields "conditions" createEmptyConditionsBlock) = true
      exact CleanEntries_jsSet fields _ _ hE conditionsKey_clean (by decide)
    · cases val
      case obj cf =>
        simp only [ensureAbilityConditions, hg]
        show CleanEntries (jsSet fields "conditions"
          (Json.obj (fixUnlocking (fixEnabling cf)))) = true
        have hcf : CleanEntries cf = true := by
          simpa [CleanJson] using CleanJson_jsGet fields _ _ hE hg
        refine CleanEntries_jsSet fields _ _ hE conditionsKey_clean ?_
        show CleanEntries (fixUnlocking (fixEnabling cf)) = true
        exact clean_fixUnlocking _ (clean_fixEnabling _ hcf)
      all_goals
        simp only [ensureAbilityConditions, hg]
        show CleanEntries (jsSet fields "conditions" createEmptyConditionsBlock) = true
        exact CleanEntries_jsSet fields _ _ hE conditionsKey_clean (by decide)
  | null => exact h
  | bool b => exact h
  | num n => exact h
  | str s => exact h
  | arr a => exact h

def badExampleStr : String := "\x7b \"a\": \"\\\"\" \x7d"

/-- Counterexample to C1 as stated: the ability example `{ "a": "\"" }` parses
as JSON, but the snippet's placeholder default for the string value is the
raw, un-JSON-escaped quote character, so the placeholder-filled snippet is
not JSON at all — it parses as nothing, let alone as the augmented example. -/
theorem c1_snippet_roundtrip_counterexample :
    parseJson badExampleStr = some (Json.obj [("a", Json.str "\"")])
    ∧ parseJson (substPlaceholders
        (buildSnippetFromExample badExampleStr DocKind.ability).1) = none :=
  ⟨rfl, rfl⟩

/-- C1 (amended): for every ability schema example whose parse is `Clean` —
every string scalar nonempty and free of characters that JSON-escaping or
snippet reinsertion would alter, every key additionally dollar-free —
replacing each tab stop of `buildSnippetFromExample`'s snippet by its default
text (snippet escapes undone) yields exactly the canonical four-space
pretty-print of the example augmented by `ensureAbilityConditions` (which
injects `conditions: {enabling: [], unlocking: []}` when absent and completes
a partial conditions object), and the `pretty` half is the pretty-print of
the unaugmented example. -/
theorem c1_snippet_roundtrip_amended (exampleStr : String) (v : Json)
    (hp : parseJson exampleStr = some v) (hc : CleanJson v = true) :
    substPlaceholders (buildSnippetFromExample exampleStr DocKind.ability).1
      = stringifyJson (ensureAbilityConditions v) 0
    ∧ (buildSnippetFromExample exampleStr DocKind.ability).2 = stringifyJson v 0 := by
  have hb : buildSnippetFromExample exampleStr DocKind.ability
      = ((renderValue (ensureAbilityConditions v) 0 1).1, stringifyJson v 0) := by
    simp only [buildSnippetFromExample, hp]
  rw [hb]
  refine ⟨?_, rfl⟩
  have hclA := clean_ensureAbilityConditions v hc
  have hmain := render_subst_fuel (sizeOf (ensureAbilityConditions v)) _ le_rfl hclA 0 1 []
  rw [List.append_nil, substM_nil, List.append_nil] at hmain
  show (⟨substM SubstState.copy (renderValue (ensureAbilityConditions v) 0 1).1.data⟩ : String)
    = stringifyJson (ensureAbilityConditions v) 0
  rw [hmain]

/-- Witness for the amended C1 at the example `{"power": 1}`. -/
theorem c1_snippet_roundtrip_amended_witness :
    parseJson "\x7b\"power\": 1\x7d" = some (Json.obj [("power", Json.num 1)])
    ∧ substPlaceholders
        (buildSnippetFromExample "\x7b\"power\": 1\x7d" DocKind.ability).1
      = stringifyJson (ensureAbilityConditions (Json.obj [("power", Json.num 1)])) 0
    ∧ (buildSnippetFromExample "\x7b\"power\": 1\x7d" DocKind.ability).2
      = stringifyJson (Json.obj [("power", Json.num 1)]) 0 := by
  refine ⟨rfl, ?_, ?_⟩
  · exact (c1_snippet_roundtrip_amended "\x7b\"power\": 1\x7d"
      (Json.obj [("power", Json.num 1)]) rfl (by decide)).1
  · exact (c1_snippet_roundtrip_amended "\x7b\"power\": 1\x7d"
      (Json.obj [("power", Json.num 1)]) rfl (by decide)).2
